import Mathlib

/-!
# Verification of the MPI all-pairs shortest-paths program (`path-mpi.c`)

This file gives a shallow embedding of the program in `src/path-mpi.c` and
proves (or refutes) the frozen claims C1..C10 about it.

Matrices are embedded as flat maps `ℕ → ℤ` (the C `int*` buffers), with the
logical entry `(i, j)` stored at flat index `j*n + i`, exactly as in the C
source.  Machine `int` arithmetic is modelled by unbounded `ℤ`: all values
appearing in the computation are bounded by `2*(n+1)`, far below any overflow
threshold for the sizes the claims quantify over.

Imperative loops become `List.foldl` over the same index ranges the C `for`
loops traverse, and in-place stores become `Function.update` on the flat map,
so that sequential write/read interactions (including potential index
aliasing) are preserved faithfully.
-/

namespace Path


/-! ## The `square` kernel

C source (`path-mpi.c`, `square`):
one step of the min-plus recurrence on the tile
`[imin_, imax_) × [jmin_, jmax_)`.  For each tile cell `(i,j)` the inner
`k` loop keeps a running value `lij`, initialised from `lnew[j*n+i]`, and
lowers it whenever `l[k*n+i] + l[j*n+k]` is smaller, clearing the shared
`done` flag on every strict improvement; finally `lnew[j*n+i] = lij`.
The `l` buffer is only ever read (the single store in the loop nest targets
`lnew`), so the embedding returns the new `lnew` contents and the flag. -/

/-- One iteration of the inner `k` loop of `square`: state is the running
`(lij, done)` pair for the current cell `(i, j)`. -/
def kBody (n : ℕ) (l : ℕ → ℤ) (i j : ℕ) (s : ℤ × Bool) (k : ℕ) : ℤ × Bool :=
  let lkj := l (j*n + k)
  let lik := l (k*n + i)
  if lik + lkj < s.1 then (lik + lkj, false) else s

/-- The whole inner `k` loop of `square` for one tile cell `(i, j)`:
starting from `init = lnew[j*n+i]`, fold `kBody` over `k = 0, …, n-1`.
Returns the final cell value and a per-cell "no strict improvement" flag
(the shared C `done` flag is the conjunction of these per-cell flags,
since `done` only ever moves from 1 to 0). -/
def squareCell (n : ℕ) (l : ℕ → ℤ) (init : ℤ) (i j : ℕ) : ℤ × Bool :=
  (List.range n).foldl (kBody n l i j) (init, true)

/-- Body of the middle `i` loop of `square`: run the `k` loop on cell
`(i, j)` (reading the running buffer at `j*n+i`) and store the result. -/
def iStep (n : ℕ) (l : ℕ → ℤ) (j : ℕ) (s : (ℕ → ℤ) × Bool) (i : ℕ) :
    (ℕ → ℤ) × Bool :=
  let r := squareCell n l (s.1 (j*n + i)) i j
  (Function.update s.1 (j*n + i) r.1, s.2 && r.2)

/-- Body of the outer `j` loop of `square`: the `i` loop over
`i = imin_, …, imax_-1`. -/
def jStep (imin_ imax_ n : ℕ) (l : ℕ → ℤ) (s : (ℕ → ℤ) × Bool) (j : ℕ) :
    (ℕ → ℤ) × Bool :=
  (List.range' imin_ (imax_ - imin_)).foldl (iStep n l j) s

/-- Embedding of C `square(irank, imin_, jmin_, imax_, jmax_, n, l, lnew)`.
`irank` is accepted and ignored, exactly as in the source.  Returns the
final contents of the `lnew` buffer together with the `done` flag. -/
def square (irank imin_ jmin_ imax_ jmax_ n : ℕ) (l lnew : ℕ → ℤ) :
    (ℕ → ℤ) × Bool :=
  let _ := irank
  (List.range' jmin_ (jmax_ - jmin_)).foldl (jStep imin_ imax_ n l) (lnew, true)

/-- The min-plus candidate `l[k*n+i] + l[j*n+k]` for cell `(i,j)` and
intermediate node `k`. -/
def cand (n : ℕ) (l : ℕ → ℤ) (i j k : ℕ) : ℤ :=
  l (k*n + i) + l (j*n + k)

/-- `min over k in [0,n) of (l[k*n+i] + l[j*n+k])`, valued in `WithTop ℤ`
so that the empty minimum (n = 0) is `⊤`. -/
def candMin (n : ℕ) (l : ℕ → ℤ) (i j : ℕ) : WithTop ℤ :=
  (Finset.range n).inf (fun k => ((cand n l i j k : ℤ) : WithTop ℤ))

/-! ## The infinity convention: `infinitize`, `deinfinitize`, diagonal reset -/

/-- Embedding of C `infinitize(imin_, jmin_, imax_, jmax_, n, l)`: a single
loop over all `n*n` flat indices, ignoring the tile-bound arguments,
replacing every zero entry by the sentinel `n+1`.  The loop body at each
index is independent of the others, so the pointwise embedding is exact. -/
def infinitize (imin_ jmin_ imax_ jmax_ n : ℕ) (l : ℕ → ℤ) : ℕ → ℤ :=
  let _ := (imin_, jmin_, imax_, jmax_)
  fun idx =>
    if idx < n*n then (if l idx = 0 then (n:ℤ)+1 else l idx) else l idx

/-- Embedding of C `deinfinitize`: the same loop shape, replacing every
sentinel `n+1` entry by 0. -/
def deinfinitize (imin_ jmin_ imax_ jmax_ n : ℕ) (l : ℕ → ℤ) : ℕ → ℤ :=
  let _ := (imin_, jmin_, imax_, jmax_)
  fun idx =>
    if idx < n*n then (if l idx = (n:ℤ)+1 then 0 else l idx) else l idx

/-- The diagonal-reset loop at the top of `shortest_paths`:
`for (int i = 0; i < n*n; i += n+1) l[i] = 0;` zeroes exactly the flat
indices that are multiples of `n+1` below `n*n`. -/
def setDiag (n : ℕ) (l : ℕ → ℤ) : ℕ → ℤ :=
  fun idx => if idx < n*n ∧ (n+1) ∣ idx then 0 else l idx

/-! ## Single-process model of `shortest_paths`

C source (`path-mpi.c`, `shortest_paths`): infinitize, reset the diagonal,
create `lnew` as the MAX-allreduce of `l` (on a single process this copies
`l`), then loop: `mydone = square(...)`; MIN-allreduce of the flag; the
MIN-allreduce `lnew → l`; until done; finally deinfinitize.  Modelled
single-process (claim C1): the tile is the whole matrix and every collective
reduction is the identity, so at the top of each round `l` and `lnew` hold
equal contents and the loop state is a single matrix. -/

/-- The matrix at the top of the first round: `infinitize` over the whole
matrix (the actual call passes the tile bounds, which `infinitize` ignores),
then the diagonal reset. -/
def spInit (n : ℕ) (l : ℕ → ℤ) : ℕ → ℤ :=
  setDiag n (infinitize 0 0 n n n l)

/-- One round of the single-process loop: `square` over the full matrix,
reading `l = M` and seeding from `lnew = M` (equal contents at the top of
every round).  Returns the merged next matrix and the convergence flag. -/
def spStep (n : ℕ) (M : ℕ → ℤ) : (ℕ → ℤ) × Bool :=
  square 0 0 0 n n n M M

/-- The convergence loop with explicit fuel: returns `none` if the fuel runs
out, otherwise the final matrix together with the number of executed rounds
(compute, merge, convergence check). -/
def spLoop (n : ℕ) : ℕ → (ℕ → ℤ) → Option ((ℕ → ℤ) × ℕ)
  | 0, _ => none
  | fuel+1, M =>
    let r := spStep n M
    if r.2 then some (r.1, 1)
    else (spLoop n fuel r.1).map (fun q => (q.1, q.2 + 1))

/-- The whole single-process `shortest_paths` pipeline (with fuel for the
convergence loop): init, loop, `deinfinitize` (whose tile-bound arguments —
passed in swapped order by the C call, and ignored — do not matter). -/
def shortest_paths (n fuel : ℕ) (l : ℕ → ℤ) : Option ((ℕ → ℤ) × ℕ) :=
  (spLoop n fuel (spInit n l)).map
    (fun q => (deinfinitize 0 n 0 n n q.1, q.2))

/-! ## The graph read off from the adjacency matrix -/

/-- `adjOf n l i j` holds when the input matrix records a directed edge
`i → j`, i.e. `l[j*n+i] = 1`. -/
def adjOf (n : ℕ) (l : ℕ → ℤ) (i j : ℕ) : Bool :=
  l (j*n + i) == 1

/-- A valid input for claim C1: an `n × n` 0/1 matrix with zero diagonal. -/
def ValidAdj (n : ℕ) (l : ℕ → ℤ) : Prop :=
  (∀ i < n, ∀ j < n, l (j*n + i) = 0 ∨ l (j*n + i) = 1) ∧
  (∀ i < n, l (i*n + i) = 0)

/-- `leB adj n m i j`: there is a directed walk from `i` to `j` of at most
`m` edges whose intermediate vertices lie in `[0, n)` (decomposed at the
last edge).  The minimum `m` with `leB adj n m i j` is the length of a
shortest walk, i.e. the minimum number of edges on a directed path from `i`
to `j`. -/
def leB (adj : ℕ → ℕ → Bool) (n : ℕ) : ℕ → ℕ → ℕ → Bool
  | 0, i, j => i == j
  | m+1, i, j => leB adj n m i j ||
      (List.range n).any (fun k => leB adj n m i k && adj k j)

/-- The shortest-path distance read off from `leB`: the least `m` (searched
below `n`, which suffices for vertices of the graph) admitting a walk of at
most `m` edges, and the sentinel value `n+1` when there is none. -/
def distB (adj : ℕ → ℕ → Bool) (n i j : ℕ) : ℕ :=
  if h : ∃ m, m < n ∧ leB adj n m i j = true then Nat.find h else n+1

/-- The `ℤ`-valued shortest-path matrix entry (diagonal 0, unreachable pairs
at the sentinel `n+1`). -/
def spDist (adj : ℕ → ℕ → Bool) (n i j : ℕ) : ℤ :=
  (distB adj n i j : ℤ)

/-! ### Stabilisation: any reachable vertex is reachable in `≤ n-1` steps -/

/-- The set of vertices of `[0,n)` reachable from `i` in at most `m` steps. -/
def reachSet (adj : ℕ → ℕ → Bool) (n i m : ℕ) : Finset ℕ :=
  (Finset.range n).filter (fun k => leB adj n m i k = true)

/-- The trajectory of the single-process loop: `spIter n M t` is the matrix
after `t` rounds starting from `M`. -/
def spIter (n : ℕ) (M : ℕ → ℤ) : ℕ → (ℕ → ℤ)
  | 0 => M
  | t+1 => (spStep n (spIter n M t)).1

/-- The invariants carried through the loop: entries dominate the true
(truncated) distances, entries never exceed their initial values, and
entries beyond the `n*n` buffer are untouched. -/
def GoodM (n : ℕ) (l M : ℕ → ℤ) : Prop :=
  (∀ i, i < n → ∀ j, j < n → spDist (adjOf n l) n i j ≤ M (j*n + i)) ∧
  (∀ i, i < n → ∀ j, j < n → M (j*n + i) ≤ spInit n l (j*n + i)) ∧
  (∀ idx, n*n ≤ idx → M idx = spInit n l idx)

/-! ## The domain decomposition in `main`

C source (`path-mpi.c`, `main`): per axis with length `n`, axis size `g`
and 1-indexed coordinate `iproc`:
`q = floor(n/g); r = n%g;` (`floor` on an already-integer C division is the
identity); if `iproc <= r` then `nx_ = q+1; imin_ = (iproc-1)*(q+1)` else
`nx_ = q; imin_ = r*(q+1) + (iproc-r-1)*q`; and `imax_ = imin_ + nx_`.
Natural subtraction agrees with C here because `iproc ≥ 1`, and in the else
branch `iproc ≥ r+1`. -/

/-- The per-axis decomposition: returns `(imin_, imax_)`. -/
def decomp (n g iproc : ℕ) : ℕ × ℕ :=
  if iproc ≤ n % g then
    ((iproc-1)*(n/g+1), (iproc-1)*(n/g+1) + (n/g+1))
  else
    ((n%g)*(n/g+1) + (iproc-(n%g)-1)*(n/g),
     (n%g)*(n/g+1) + (iproc-(n%g)-1)*(n/g) + n/g)

/-- Closed form of the start offsets: `decomp n g iproc =
(decompStart n g iproc, decompStart n g (iproc+1))`. -/
def decompStart (n g i : ℕ) : ℕ :=
  if i ≤ n % g + 1 then (i-1)*(n/g+1)
  else (n%g)*(n/g+1) + (i-1-(n%g))*(n/g)

/-! ## Claim C6: the startup configuration check in `main` -/

/-- Outcome of the startup configuration check, per process: either the
process prints the diagnostic (requested vs available counts) and exits
with the given code, or it continues into `MPI_Cart_create`, the
partitioning arithmetic and `shortest_paths`. -/
inductive MainOutcome
  | aborted (requested available exitCode : ℤ)
  | ran
deriving DecidableEq

/-- Embedding of the check in `main` (`path-mpi.c`):
`if(npx*npy != world_size && irank==iroot) { printf("ERROR: %d procs
requested while only %d procs available \n", npx*npy, world_size);
exit(-1); }` with `iroot = 0` and `irank` the 0-based MPI rank (the check
runs before the `+1` re-indexing). -/
def mainCheck (npx npy world_size irank : ℤ) : MainOutcome :=
  if npx * npy ≠ world_size ∧ irank = 0 then
    .aborted (npx*npy) world_size (-1)
  else
    .ran

/-! ## Claim C10: the postcondition of `gen_graph` -/

/-- Modelled from the spec: the Mersenne-twister PRNG (`sgenrand` /
`genrand` of `mt19937p`) is `#include`d by `path-mpi.c` but its source is
not under `src/`; the spec describes it only as "a seeded pseudorandom edge
sampler" / "a thread-safe version of the Mersenne twister".  We model it as
an abstract family `mt : seed → draw index → value` of draw sequences (one
sequence per seed, values in the ordered field `ℚ` standing in for C
doubles compared against `p` with `<`).

`gen_graph(n, p)` (`path-mpi.c`): `calloc` an `n*n` zero buffer, seed the
generator with the fixed constant `10302011`, then for `j` outer and `i`
inner set `l[j*n+i] = (genrand(&state) < p)` — so the entry at flat index
`idx = j*n+i` consumes draw number `idx` — and after each inner pass
overwrite the diagonal entry `l[j*n+j] = 0`. -/
def gen_graph (mt : ℕ → ℕ → ℚ) (n : ℕ) (p : ℚ) : ℕ → ℤ :=
  fun idx =>
    if idx < n*n then
      if idx % n = idx / n then 0
      else if mt 10302011 idx < p then 1 else 0
    else 0

/-! ## `fletcher16` -/

/-- Embedding of C `fletcher16(data, count)`: two running accumulators,
`sum1 = (sum1 + data[index]) % 255` and `sum2 = (sum2 + sum1) % 255` over
`index = 0, …, count-1`, combined as `(sum2 << 8) | sum1`.  C's `%` on
`int` is truncated division remainder, i.e. `Int.tmod`. -/
def fletcher16 (data : ℕ → ℤ) (count : ℕ) : ℤ :=
  let s := (List.range count).foldl
    (fun s idx =>
      let sum1 := Int.tmod (s.1 + data idx) 255
      (sum1, Int.tmod (s.2 + sum1) 255))
    ((0:ℤ), (0:ℤ))
  Int.lor (s.2 <<< 8) s.1

/-! ## The round-based multi-process model of `shortest_paths` (claim C2)

Claim C2's model: processes are the 1-indexed grid coordinates
`(px, py) ∈ [1,gx] × [1,gy]`, each owning the tile given by the per-axis
decomposition.  All processes generate the same input (same fixed seed), so
they all start from the same `spInit` matrix, and the initial MAX-allreduce
of identical copies seeds every process's `lnew` with that same matrix.
Each round: every process runs `square` on its own tile of its own copy of
`lnew` reading the merged matrix `l`; the global convergence flag is the
AND (`MPI_MIN` over 0/1 ints) of the per-process flags; the merged matrix
is the cell-wise minimum (`MPI_MIN`) over all processes' copies. -/

/-- The list of 1-indexed grid coordinates. -/
def gridL (gx gy : ℕ) : List (ℕ × ℕ) :=
  ((List.range' 1 gx).map
    (fun px => (List.range' 1 gy).map (fun py => (px, py)))).join

/-- Cell-wise minimum over a (nonempty, in all uses) list of values. -/
def listMin : List ℤ → ℤ
  | [] => 0
  | x :: xs => xs.foldl min x

/-- One process's `square` call: its tile comes from the per-axis
decomposition of its grid coordinates. -/
def procSquare (n gx gy : ℕ) (l B : ℕ → ℤ) (p : ℕ × ℕ) : (ℕ → ℤ) × Bool :=
  square 0 (decomp n gx p.1).1 (decomp n gy p.2).1
    (decomp n gx p.1).2 (decomp n gy p.2).2 n l B

/-- Ownership of flat index `idx` by process `p` (matching the tile
condition of `square_fst`; an `abbrev` so decidability unfolds). -/
abbrev InTile (n gx gy : ℕ) (p : ℕ × ℕ) (idx : ℕ) : Prop :=
  (decomp n gx p.1).1 ≤ idx % n ∧ idx % n < (decomp n gx p.1).2 ∧
  (decomp n gy p.2).1 ≤ idx / n ∧ idx / n < (decomp n gy p.2).2

/-- One round of the multi-process model: local squares, flag AND,
cell-wise MIN merge over all processes' copies. -/
def mpRound (n gx gy : ℕ) (st : (ℕ → ℤ) × ((ℕ × ℕ) → ℕ → ℤ)) :
    ((ℕ → ℤ) × ((ℕ × ℕ) → ℕ → ℤ)) × Bool :=
  let B' : (ℕ × ℕ) → ℕ → ℤ := fun p => (procSquare n gx gy st.1 (st.2 p) p).1
  let flag : Bool :=
    (gridL gx gy).all (fun p => (procSquare n gx gy st.1 (st.2 p) p).2)
  ((fun idx => listMin ((gridL gx gy).map (fun p => B' p idx)), B'), flag)

/-- The multi-process convergence loop with fuel, returning the final
merged matrix and the number of executed rounds. -/
def mpLoop (n gx gy : ℕ) :
    ℕ → ((ℕ → ℤ) × ((ℕ × ℕ) → ℕ → ℤ)) → Option ((ℕ → ℤ) × ℕ)
  | 0, _ => none
  | fuel+1, st =>
    let r := mpRound n gx gy st
    if r.2 then some (r.1.1, 1)
    else (mpLoop n gx gy fuel r.1).map (fun q => (q.1, q.2 + 1))

/-- Initial multi-process state: merged matrix and every per-process copy
equal to `spInit` (identical generation on every process, MAX-merge of
identical copies). -/
def mpInit (n : ℕ) (l : ℕ → ℤ) : (ℕ → ℤ) × ((ℕ × ℕ) → ℕ → ℤ) :=
  (spInit n l, fun _ => spInit n l)

/-! ### Invariants of the multi-process run -/

/-- Bounds carried by the merged matrix (no validity of the input needed):
entries never exceed their initial values, and out-of-range entries are
untouched. -/
def MBound (n : ℕ) (l M : ℕ → ℤ) : Prop :=
  (∀ i, i < n → ∀ j, j < n → M (j*n + i) ≤ spInit n l (j*n + i)) ∧
  (∀ idx, n*n ≤ idx → M idx = spInit n l idx)

/-- The per-process buffer invariant: each process's copy of `lnew` holds
the merged value on its own tile and the untouched initial value
everywhere else. -/
def MPInv (n gx gy : ℕ) (l M : ℕ → ℤ) (B : (ℕ × ℕ) → ℕ → ℤ) : Prop :=
  ∀ p ∈ gridL gx gy, ∀ idx,
    B p idx = if InTile n gx gy p idx then M idx else spInit n l idx

/-! ## Theorems -/

/-! ### Characterisation of the inner `k` loop -/

theorem kLoop_fst_bundle (n : ℕ) (l : ℕ → ℤ) (i j : ℕ) (ks : List ℕ)
    (a : ℤ) (b : Bool) :
    (ks.foldl (kBody n l i j) (a, b)).1 ≤ a ∧
    (∀ k ∈ ks, (ks.foldl (kBody n l i j) (a, b)).1 ≤ cand n l i j k) ∧
    ((ks.foldl (kBody n l i j) (a, b)).1 = a ∨
      ∃ k ∈ ks, (ks.foldl (kBody n l i j) (a, b)).1 = cand n l i j k) := by
  induction ks generalizing a b with
  | nil => exact ⟨le_refl a, by simp, Or.inl rfl⟩
  | cons k ks ih =>
    simp only [List.foldl_cons]
    by_cases h : l (k*n + i) + l (j*n + k) < a
    · have hk : kBody n l i j (a, b) k = (cand n l i j k, false) := by
        simp [kBody, cand, h]
      rw [hk]
      obtain ⟨h1, h2, h3⟩ := ih (cand n l i j k) false
      refine ⟨le_trans h1 (le_of_lt h), ?_, ?_⟩
      · intro k' hk'
        rcases List.mem_cons.mp hk' with rfl | hk'
        · exact h1
        · exact h2 k' hk'
      · rcases h3 with h3 | ⟨k', hk', h3⟩
        · exact Or.inr ⟨k, List.mem_cons_self k ks, h3⟩
        · exact Or.inr ⟨k', List.mem_cons_of_mem k hk', h3⟩
    · have hk : kBody n l i j (a, b) k = (a, b) := by
        simp [kBody, h]
      rw [hk]
      obtain ⟨h1, h2, h3⟩ := ih a b
      refine ⟨h1, ?_, ?_⟩
      · intro k' hk'
        rcases List.mem_cons.mp hk' with rfl | hk'
        · exact le_trans h1 (not_lt.mp h)
        · exact h2 k' hk'
      · rcases h3 with h3 | ⟨k', hk', h3⟩
        · exact Or.inl h3
        · exact Or.inr ⟨k', List.mem_cons_of_mem k hk', h3⟩

theorem kLoop_snd (n : ℕ) (l : ℕ → ℤ) (i j : ℕ) (ks : List ℕ)
    (a : ℤ) (b : Bool) :
    (ks.foldl (kBody n l i j) (a, b)).2 = true ↔
      (b = true ∧ ∀ k ∈ ks, a ≤ cand n l i j k) := by
  induction ks generalizing a b with
  | nil => simp
  | cons k ks ih =>
    simp only [List.foldl_cons]
    by_cases h : l (k*n + i) + l (j*n + k) < a
    · have hk : kBody n l i j (a, b) k = (cand n l i j k, false) := by
        simp [kBody, cand, h]
      rw [hk, ih]
      simp only [Bool.false_eq_true, false_and, false_iff, not_and]
      intro _ hall
      exact absurd (hall k (List.mem_cons_self k ks)) (not_le.mpr h)
    · have hk : kBody n l i j (a, b) k = (a, b) := by
        simp [kBody, h]
      rw [hk, ih]
      constructor
      · rintro ⟨hb, hall⟩
        refine ⟨hb, ?_⟩
        intro k' hk'
        rcases List.mem_cons.mp hk' with rfl | hk'
        · exact not_lt.mp h
        · exact hall k' hk'
      · rintro ⟨hb, hall⟩
        exact ⟨hb, fun k' hk' => hall k' (List.mem_cons_of_mem k hk')⟩

theorem squareCell_fst_le_init (n : ℕ) (l : ℕ → ℤ) (a : ℤ) (i j : ℕ) :
    (squareCell n l a i j).1 ≤ a :=
  (kLoop_fst_bundle n l i j (List.range n) a true).1

theorem squareCell_fst_le_cand (n : ℕ) (l : ℕ → ℤ) (a : ℤ) (i j k : ℕ)
    (hk : k < n) : (squareCell n l a i j).1 ≤ cand n l i j k :=
  (kLoop_fst_bundle n l i j (List.range n) a true).2.1 k (List.mem_range.mpr hk)

theorem squareCell_fst_cases (n : ℕ) (l : ℕ → ℤ) (a : ℤ) (i j : ℕ) :
    (squareCell n l a i j).1 = a ∨
      ∃ k < n, (squareCell n l a i j).1 = cand n l i j k := by
  rcases (kLoop_fst_bundle n l i j (List.range n) a true).2.2 with h | ⟨k, hk, h⟩
  · exact Or.inl h
  · exact Or.inr ⟨k, List.mem_range.mp hk, h⟩

theorem squareCell_snd_iff (n : ℕ) (l : ℕ → ℤ) (a : ℤ) (i j : ℕ) :
    (squareCell n l a i j).2 = true ↔ ∀ k < n, a ≤ cand n l i j k := by
  rw [squareCell, kLoop_snd]
  simp [List.mem_range]

/-- The final cell value is exactly
`min (lnew_before[j*n+i]) (min over k < n of the candidates)`,
phrased in `WithTop ℤ` so the `k`-minimum is total. -/
theorem squareCell_fst_eq (n : ℕ) (l : ℕ → ℤ) (a : ℤ) (i j : ℕ) :
    ((squareCell n l a i j).1 : WithTop ℤ) =
      min (a : WithTop ℤ) (candMin n l i j) := by
  apply le_antisymm
  · refine le_min ?_ ?_
    · exact_mod_cast squareCell_fst_le_init n l a i j
    · refine Finset.le_inf ?_
      intro k hk
      exact_mod_cast squareCell_fst_le_cand n l a i j k (Finset.mem_range.mp hk)
  · rcases squareCell_fst_cases n l a i j with h | ⟨k, hk, h⟩
    · rw [h]; exact min_le_left _ _
    · rw [h]
      exact le_trans (min_le_right _ _)
        (Finset.inf_le (Finset.mem_range.mpr hk))

/-- The per-cell flag is true iff the candidate minimum does not strictly
improve on the initial value. -/
theorem squareCell_snd_eq (n : ℕ) (l : ℕ → ℤ) (a : ℤ) (i j : ℕ) :
    (squareCell n l a i j).2 = true ↔ (a : WithTop ℤ) ≤ candMin n l i j := by
  rw [squareCell_snd_iff]
  constructor
  · intro h
    refine Finset.le_inf ?_
    intro k hk
    exact_mod_cast h k (Finset.mem_range.mp hk)
  · intro h k hk
    exact_mod_cast le_trans h (Finset.inf_le (Finset.mem_range.mpr hk))

/-! ### Index decoding for the flat `j*n + i` layout -/

theorem decode_mod (n i j : ℕ) (hi : i < n) : (j*n + i) % n = i := by
  rw [add_comm, Nat.add_mul_mod_self_right, Nat.mod_eq_of_lt hi]

theorem decode_div (n i j : ℕ) (hi : i < n) : (j*n + i) / n = j := by
  rw [add_comm, Nat.add_mul_div_right _ _ (by omega),
    Nat.div_eq_of_lt hi, Nat.zero_add]

theorem decode_eq (n idx : ℕ) (_hn : 0 < n) : (idx / n) * n + idx % n = idx := by
  rw [mul_comm]
  exact Nat.div_add_mod idx n

theorem mem_range'_iff (s e x : ℕ) : x ∈ List.range' s (e - s) ↔ s ≤ x ∧ x < e := by
  rw [List.mem_range'_1]
  omega

theorem list_all_congr {α : Type} (xs : List α) (p q : α → Bool)
    (h : ∀ x ∈ xs, p x = q x) : xs.all p = xs.all q := by
  induction xs with
  | nil => rfl
  | cons x xs ih =>
    simp only [List.all_cons]
    rw [h x (List.mem_cons_self x xs),
      ih (fun y hy => h y (List.mem_cons_of_mem x hy))]

/-! ### Characterisation of the `i` loop -/

theorem iFold_fst (n : ℕ) (l : ℕ → ℤ) (j : ℕ) (is : List ℕ)
    (hnd : is.Nodup) (hlt : ∀ i ∈ is, i < n) (buf : ℕ → ℤ) (b : Bool)
    (idx : ℕ) :
    (is.foldl (iStep n l j) (buf, b)).1 idx =
      if idx % n ∈ is ∧ idx / n = j
      then (squareCell n l (buf idx) (idx % n) j).1
      else buf idx := by
  induction is generalizing buf b with
  | nil => simp
  | cons i is ih =>
    have hi : i < n := hlt i (List.mem_cons_self i is)
    have hnotmem : i ∉ is := (List.nodup_cons.mp hnd).1
    have hnd' : is.Nodup := (List.nodup_cons.mp hnd).2
    have hlt' : ∀ x ∈ is, x < n := fun x hx => hlt x (List.mem_cons_of_mem i hx)
    simp only [List.foldl_cons]
    have hstep : iStep n l j (buf, b) i =
        (Function.update buf (j*n + i) (squareCell n l (buf (j*n + i)) i j).1,
          b && (squareCell n l (buf (j*n + i)) i j).2) := rfl
    rw [hstep, ih hnd' hlt']
    by_cases hc : idx % n ∈ is ∧ idx / n = j
    · rw [if_pos hc]
      have hne : idx ≠ j*n + i := by
        intro he
        apply hnotmem
        have : idx % n = i := by rw [he, decode_mod n i j hi]
        rw [← this]
        exact hc.1
      rw [Function.update_noteq hne]
      rw [if_pos ⟨List.mem_cons_of_mem i hc.1, hc.2⟩]
    · rw [if_neg hc]
      by_cases he : idx = j*n + i
      · subst he
        rw [Function.update_same]
        rw [if_pos ⟨by rw [decode_mod n i j hi]; exact List.mem_cons_self i is,
          decode_div n i j hi⟩]
        rw [decode_mod n i j hi]
      · rw [Function.update_noteq he]
        rw [if_neg]
        rintro ⟨hmem, hdiv⟩
        rcases List.mem_cons.mp hmem with hmi | hmi
        · apply he
          have hn0 : 0 < n := (by omega : 0 < n)
          calc idx = (idx / n) * n + idx % n := (decode_eq n idx hn0).symm
            _ = j*n + i := by rw [hdiv, hmi]
        · exact hc ⟨hmi, hdiv⟩

theorem iFold_snd (n : ℕ) (l : ℕ → ℤ) (j : ℕ) (is : List ℕ)
    (hnd : is.Nodup) (hlt : ∀ i ∈ is, i < n) (buf : ℕ → ℤ) (b : Bool) :
    (is.foldl (iStep n l j) (buf, b)).2 =
      (b && is.all (fun i => (squareCell n l (buf (j*n + i)) i j).2)) := by
  induction is generalizing buf b with
  | nil => simp
  | cons i is ih =>
    have hi : i < n := hlt i (List.mem_cons_self i is)
    have hnotmem : i ∉ is := (List.nodup_cons.mp hnd).1
    have hnd' : is.Nodup := (List.nodup_cons.mp hnd).2
    have hlt' : ∀ x ∈ is, x < n := fun x hx => hlt x (List.mem_cons_of_mem i hx)
    simp only [List.foldl_cons]
    have hstep : iStep n l j (buf, b) i =
        (Function.update buf (j*n + i) (squareCell n l (buf (j*n + i)) i j).1,
          b && (squareCell n l (buf (j*n + i)) i j).2) := rfl
    rw [hstep, ih hnd' hlt']
    have hbufs : ∀ x ∈ is,
        (squareCell n l
          ((Function.update buf (j*n + i)
            (squareCell n l (buf (j*n + i)) i j).1) (j*n + x)) x j).2 =
        (squareCell n l (buf (j*n + x)) x j).2 := by
      intro x hx
      have hne : j*n + x ≠ j*n + i := by
        intro he
        exact hnotmem (by rwa [Nat.add_left_cancel he] at hx)
      rw [Function.update_noteq hne]
    rw [list_all_congr is _ _ hbufs, List.all_cons, Bool.and_assoc]

/-! ### Characterisation of the `j` loop, and of `square` itself -/

theorem jFold_fst (imin_ imax_ n : ℕ) (l : ℕ → ℤ) (js : List ℕ)
    (hnd : js.Nodup) (hin : imax_ ≤ n) (buf : ℕ → ℤ) (b : Bool) (idx : ℕ) :
    (js.foldl (jStep imin_ imax_ n l) (buf, b)).1 idx =
      if (imin_ ≤ idx % n ∧ idx % n < imax_) ∧ idx / n ∈ js
      then (squareCell n l (buf idx) (idx % n) (idx / n)).1
      else buf idx := by
  induction js generalizing buf b with
  | nil => simp
  | cons j js ih =>
    have hnotmem : j ∉ js := (List.nodup_cons.mp hnd).1
    have hnd' : js.Nodup := (List.nodup_cons.mp hnd).2
    simp only [List.foldl_cons]
    have hrow : ∀ (buf' : ℕ → ℤ) (b' : Bool) (idx' : ℕ),
        (jStep imin_ imax_ n l (buf', b') j).1 idx' =
          if (imin_ ≤ idx' % n ∧ idx' % n < imax_) ∧ idx' / n = j
          then (squareCell n l (buf' idx') (idx' % n) j).1
          else buf' idx' := by
      intro buf' b' idx'
      rw [jStep, iFold_fst n l j _ (List.nodup_range' _ _)
        (fun x hx => lt_of_lt_of_le ((mem_range'_iff imin_ imax_ x).mp hx).2 hin)]
      congr 1
      rw [mem_range'_iff]
    rw [show jStep imin_ imax_ n l (buf, b) j =
        ((jStep imin_ imax_ n l (buf, b) j).1,
         (jStep imin_ imax_ n l (buf, b) j).2) from rfl,
      ih hnd', hrow buf b idx]
    by_cases hc : (imin_ ≤ idx % n ∧ idx % n < imax_) ∧ idx / n ∈ js
    · have hne : idx / n ≠ j := fun he => hnotmem (he ▸ hc.2)
      rw [if_pos hc, if_neg (fun h => hne h.2),
        if_pos ⟨hc.1, List.mem_cons_of_mem j hc.2⟩]
    · rw [if_neg hc]
      by_cases hd : (imin_ ≤ idx % n ∧ idx % n < imax_) ∧ idx / n = j
      · rw [if_pos hd,
          if_pos ⟨hd.1, by rw [hd.2]; exact List.mem_cons_self j js⟩, hd.2]
      · rw [if_neg hd, if_neg]
        rintro ⟨hic, hmem⟩
        rcases List.mem_cons.mp hmem with hm | hm
        · exact hd ⟨hic, hm⟩
        · exact hc ⟨hic, hm⟩

theorem jFold_snd (imin_ imax_ n : ℕ) (l : ℕ → ℤ) (js : List ℕ)
    (hnd : js.Nodup) (hin : imax_ ≤ n) (buf : ℕ → ℤ) (b : Bool) :
    (js.foldl (jStep imin_ imax_ n l) (buf, b)).2 =
      (b && js.all (fun j => (List.range' imin_ (imax_ - imin_)).all
        (fun i => (squareCell n l (buf (j*n + i)) i j).2))) := by
  induction js generalizing buf b with
  | nil => simp
  | cons j js ih =>
    have hnotmem : j ∉ js := (List.nodup_cons.mp hnd).1
    have hnd' : js.Nodup := (List.nodup_cons.mp hnd).2
    simp only [List.foldl_cons]
    have hrange_lt : ∀ x ∈ List.range' imin_ (imax_ - imin_), x < n :=
      fun x hx => lt_of_lt_of_le ((mem_range'_iff imin_ imax_ x).mp hx).2 hin
    have hsnd : (jStep imin_ imax_ n l (buf, b) j).2 =
        (b && (List.range' imin_ (imax_ - imin_)).all
          (fun i => (squareCell n l (buf (j*n + i)) i j).2)) := by
      rw [jStep, iFold_snd n l j _ (List.nodup_range' _ _) hrange_lt]
    have hfst : ∀ j', j' ≠ j → ∀ i ∈ List.range' imin_ (imax_ - imin_),
        (jStep imin_ imax_ n l (buf, b) j).1 (j'*n + i) = buf (j'*n + i) := by
      intro j' hne i hi
      have hi' : i < n := hrange_lt i hi
      rw [jStep, iFold_fst n l j _ (List.nodup_range' _ _) hrange_lt,
        if_neg]
      rintro ⟨_, hdiv⟩
      rw [decode_div n i j' hi'] at hdiv
      exact hne hdiv
    rw [show jStep imin_ imax_ n l (buf, b) j =
        ((jStep imin_ imax_ n l (buf, b) j).1,
         (jStep imin_ imax_ n l (buf, b) j).2) from rfl,
      ih hnd', hsnd]
    have hall : js.all (fun j' => (List.range' imin_ (imax_ - imin_)).all
          (fun i => (squareCell n l
            ((jStep imin_ imax_ n l (buf, b) j).1 (j'*n + i)) i j').2)) =
        js.all (fun j' => (List.range' imin_ (imax_ - imin_)).all
          (fun i => (squareCell n l (buf (j'*n + i)) i j').2)) := by
      apply list_all_congr
      intro j' hj'
      apply list_all_congr
      intro i hi
      rw [hfst j' (fun he => hnotmem (he ▸ hj')) i hi]
    rw [hall, List.all_cons, Bool.and_assoc]

/-- Pointwise characterisation of `square` (valid whenever `imax_ ≤ n`, so
that flat addresses `j*n + i` of distinct tile cells never alias):
the entry at flat index `idx` becomes the `k`-loop result when `idx` decodes
to a tile cell, and is untouched otherwise. -/
theorem square_fst (irank imin_ jmin_ imax_ jmax_ n : ℕ) (l lnew : ℕ → ℤ)
    (hin : imax_ ≤ n) (idx : ℕ) :
    (square irank imin_ jmin_ imax_ jmax_ n l lnew).1 idx =
      if imin_ ≤ idx % n ∧ idx % n < imax_ ∧ jmin_ ≤ idx / n ∧ idx / n < jmax_
      then (squareCell n l (lnew idx) (idx % n) (idx / n)).1
      else lnew idx := by
  rw [square, jFold_fst imin_ imax_ n l _ (List.nodup_range' _ _) hin]
  have hiff : ((imin_ ≤ idx % n ∧ idx % n < imax_) ∧
      idx / n ∈ List.range' jmin_ (jmax_ - jmin_)) ↔
      (imin_ ≤ idx % n ∧ idx % n < imax_ ∧ jmin_ ≤ idx / n ∧ idx / n < jmax_) := by
    rw [mem_range'_iff]
    tauto
  exact if_congr hiff rfl rfl

/-- The `done` flag of `square` is the conjunction, over all tile cells, of
the per-cell "no strict improvement" flags. -/
theorem square_snd (irank imin_ jmin_ imax_ jmax_ n : ℕ) (l lnew : ℕ → ℤ)
    (hin : imax_ ≤ n) :
    (square irank imin_ jmin_ imax_ jmax_ n l lnew).2 = true ↔
      ∀ i j, imin_ ≤ i → i < imax_ → jmin_ ≤ j → j < jmax_ →
        (squareCell n l (lnew (j*n + i)) i j).2 = true := by
  rw [square, jFold_snd imin_ imax_ n l _ (List.nodup_range' _ _) hin,
    Bool.true_and, List.all_eq_true]
  constructor
  · intro h i j hi1 hi2 hj1 hj2
    have hj : j ∈ List.range' jmin_ (jmax_ - jmin_) :=
      (mem_range'_iff jmin_ jmax_ j).mpr ⟨hj1, hj2⟩
    have := h j hj
    rw [List.all_eq_true] at this
    exact this i ((mem_range'_iff imin_ imax_ i).mpr ⟨hi1, hi2⟩)
  · intro h j hj
    rw [List.all_eq_true]
    intro i hi
    obtain ⟨hj1, hj2⟩ := (mem_range'_iff jmin_ jmax_ j).mp hj
    obtain ⟨hi1, hi2⟩ := (mem_range'_iff imin_ imax_ i).mp hi
    exact h i j hi1 hi2 hj1 hj2

theorem bool_eq_of_iff {a b : Bool} (h : (a = true) ↔ (b = true)) : a = b := by
  cases a <;> cases b <;> simp_all

/-! ## Claim C4: the contract of `square` -/

/-- C4: for `n ≥ 1` and tile bounds `0 ≤ imin_ ≤ imax_ ≤ n`,
`0 ≤ jmin_ ≤ jmax_ ≤ n`, after `square` returns, every tile entry
`lnew[j*n+i]` equals `min(lnew_before[j*n+i], min over k < n of
(l[k*n+i] + l[j*n+k]))`, and the returned flag is 1 iff for every tile cell
that candidate minimum is `≥ lnew_before[j*n+i]`. -/
theorem C4_square_contract (irank imin_ jmin_ imax_ jmax_ n : ℕ)
    (l lnew : ℕ → ℤ) (_hn : 1 ≤ n) (_hi1 : imin_ ≤ imax_) (hi2 : imax_ ≤ n)
    (_hj1 : jmin_ ≤ jmax_) (_hj2 : jmax_ ≤ n) :
    (∀ i j, imin_ ≤ i → i < imax_ → jmin_ ≤ j → j < jmax_ →
      (((square irank imin_ jmin_ imax_ jmax_ n l lnew).1 (j*n + i) : ℤ) :
          WithTop ℤ) =
        min ((lnew (j*n + i) : ℤ) : WithTop ℤ) (candMin n l i j)) ∧
    ((square irank imin_ jmin_ imax_ jmax_ n l lnew).2 = true ↔
      ∀ i j, imin_ ≤ i → i < imax_ → jmin_ ≤ j → j < jmax_ →
        ((lnew (j*n + i) : ℤ) : WithTop ℤ) ≤ candMin n l i j) := by
  constructor
  · intro i j hi1' hi2' hj1' hj2'
    have hi : i < n := lt_of_lt_of_le hi2' hi2
    have hcond : imin_ ≤ (j*n + i) % n ∧ (j*n + i) % n < imax_ ∧
        jmin_ ≤ (j*n + i) / n ∧ (j*n + i) / n < jmax_ := by
      rw [decode_mod n i j hi, decode_div n i j hi]
      exact ⟨hi1', hi2', hj1', hj2'⟩
    rw [square_fst irank imin_ jmin_ imax_ jmax_ n l lnew hi2 (j*n + i),
      if_pos hcond, decode_mod n i j hi, decode_div n i j hi]
    exact squareCell_fst_eq n l (lnew (j*n + i)) i j
  · rw [square_snd irank imin_ jmin_ imax_ jmax_ n l lnew hi2]
    constructor
    · intro h i j hi1' hi2' hj1' hj2'
      exact (squareCell_snd_eq n l (lnew (j*n + i)) i j).mp
        (h i j hi1' hi2' hj1' hj2')
    · intro h i j hi1' hi2' hj1' hj2'
      exact (squareCell_snd_eq n l (lnew (j*n + i)) i j).mpr
        (h i j hi1' hi2' hj1' hj2')

/-- Witness for C4 at a concrete instance. -/
theorem C4_square_contract_witness :
    (∀ i j, 0 ≤ i → i < 1 → 0 ≤ j → j < 1 →
      (((square 0 0 0 1 1 1 (fun _ => (0:ℤ)) (fun _ => (0:ℤ))).1 (j*1 + i) :
          ℤ) : WithTop ℤ) =
        min (((fun _ => (0:ℤ)) (j*1 + i) : ℤ) : WithTop ℤ)
          (candMin 1 (fun _ => (0:ℤ)) i j)) ∧
    ((square 0 0 0 1 1 1 (fun _ => (0:ℤ)) (fun _ => (0:ℤ))).2 = true ↔
      ∀ i j, 0 ≤ i → i < 1 → 0 ≤ j → j < 1 →
        (((fun _ => (0:ℤ)) (j*1 + i) : ℤ) : WithTop ℤ) ≤
          candMin 1 (fun _ => (0:ℤ)) i j) :=
  C4_square_contract 0 0 0 1 1 1 (fun _ => (0:ℤ)) (fun _ => (0:ℤ))
    (by decide) (by decide) (by decide) (by decide) (by decide)

/-! ## Claim C7: the frame property of `square` -/

/-- C7: `square` leaves every entry of `lnew` at an index `(i,j)` of the
`n × n` matrix lying outside the tile unchanged.  (The `l` buffer is
read-only by construction of the embedding: the single store of the C loop
nest targets `lnew`, so `square` does not return a modified `l` at all.) -/
theorem C7_square_frame (irank imin_ jmin_ imax_ jmax_ n : ℕ)
    (l lnew : ℕ → ℤ) (hi2 : imax_ ≤ n) (i j : ℕ) (hi : i < n) (_hj : j < n)
    (hout : i < imin_ ∨ imax_ ≤ i ∨ j < jmin_ ∨ jmax_ ≤ j) :
    (square irank imin_ jmin_ imax_ jmax_ n l lnew).1 (j*n + i) =
      lnew (j*n + i) := by
  rw [square_fst irank imin_ jmin_ imax_ jmax_ n l lnew hi2 (j*n + i), if_neg]
  rw [decode_mod n i j hi, decode_div n i j hi]
  rintro ⟨h1, h2, h3, h4⟩
  rcases hout with h | h | h | h <;> omega

/-- Witness for C7 at a concrete instance: a 2×2 matrix, tile `{(0,0)}`,
entry `(1,1)` untouched. -/
theorem C7_square_frame_witness :
    (square 0 0 0 1 1 2 (fun _ => (1:ℤ)) (fun idx => (idx:ℤ))).1 (1*2 + 1) =
      (fun idx => (idx:ℤ)) (1*2 + 1) :=
  C7_square_frame 0 0 0 1 1 2 (fun _ => (1:ℤ)) (fun idx => (idx:ℤ))
    (by decide) 1 1 (by decide) (by decide) (Or.inr (Or.inl (by decide)))

/-! ## Claim C8: does `square` read from the next buffer?

The claim asserts that the values `square` writes and its return flag do not
depend on the prior contents of `lnew`.  This is false: the running value
`lij` of the inner `k` loop is *initialised* from `lnew[jn+i]`, and the
candidate minimum is kept only when it beats that initial value, so both the
written value and the flag depend on the prior tile contents of `lnew`. -/

/-- C8 counterexample: with `n = 1`, the full tile, `l ≡ 5` and the two
next-buffers `lnew1 ≡ 0`, `lnew2 ≡ 100`, the written tile values differ
(`0` versus `10`) and the flags differ (`true` versus `false`). -/
theorem C8_counterexample :
    ¬ ((square 0 0 0 1 1 1 (fun _ => (5:ℤ)) (fun _ => (0:ℤ))).1 (0*1 + 0) =
         (square 0 0 0 1 1 1 (fun _ => (5:ℤ)) (fun _ => (100:ℤ))).1 (0*1 + 0) ∧
       (square 0 0 0 1 1 1 (fun _ => (5:ℤ)) (fun _ => (0:ℤ))).2 =
         (square 0 0 0 1 1 1 (fun _ => (5:ℤ)) (fun _ => (100:ℤ))).2) := by
  decide

/-- C8 amended: the tile values `square` writes and its returned flag depend
only on `l`, the tile bounds, `n`, and the prior contents of the next buffer
*within the tile* (each tile cell reading exactly its own prior entry):
if `lnew1` and `lnew2` agree on every tile index, both runs write identical
tile values and return the same flag. -/
theorem C8_next_dependence (irank irank' imin_ jmin_ imax_ jmax_ n : ℕ)
    (l lnew1 lnew2 : ℕ → ℤ) (hi2 : imax_ ≤ n)
    (hagree : ∀ i j, imin_ ≤ i → i < imax_ → jmin_ ≤ j → j < jmax_ →
      lnew1 (j*n + i) = lnew2 (j*n + i)) :
    (∀ i j, imin_ ≤ i → i < imax_ → jmin_ ≤ j → j < jmax_ →
      (square irank imin_ jmin_ imax_ jmax_ n l lnew1).1 (j*n + i) =
        (square irank' imin_ jmin_ imax_ jmax_ n l lnew2).1 (j*n + i)) ∧
    (square irank imin_ jmin_ imax_ jmax_ n l lnew1).2 =
      (square irank' imin_ jmin_ imax_ jmax_ n l lnew2).2 := by
  constructor
  · intro i j hi1' hi2' hj1' hj2'
    have hi : i < n := lt_of_lt_of_le hi2' hi2
    have hcond : imin_ ≤ (j*n + i) % n ∧ (j*n + i) % n < imax_ ∧
        jmin_ ≤ (j*n + i) / n ∧ (j*n + i) / n < jmax_ := by
      rw [decode_mod n i j hi, decode_div n i j hi]
      exact ⟨hi1', hi2', hj1', hj2'⟩
    rw [square_fst irank imin_ jmin_ imax_ jmax_ n l lnew1 hi2 (j*n + i),
      square_fst irank' imin_ jmin_ imax_ jmax_ n l lnew2 hi2 (j*n + i),
      if_pos hcond, if_pos hcond, hagree i j hi1' hi2' hj1' hj2']
  · apply bool_eq_of_iff
    rw [square_snd irank imin_ jmin_ imax_ jmax_ n l lnew1 hi2,
      square_snd irank' imin_ jmin_ imax_ jmax_ n l lnew2 hi2]
    constructor
    · intro h i j hi1' hi2' hj1' hj2'
      rw [← hagree i j hi1' hi2' hj1' hj2']
      exact h i j hi1' hi2' hj1' hj2'
    · intro h i j hi1' hi2' hj1' hj2'
      rw [hagree i j hi1' hi2' hj1' hj2']
      exact h i j hi1' hi2' hj1' hj2'

/-- Witness for the amended C8 at a concrete instance. -/
theorem C8_next_dependence_witness :
    (∀ i j, 0 ≤ i → i < 1 → 0 ≤ j → j < 1 →
      (square 0 0 0 1 1 2 (fun _ => (5:ℤ)) (fun _ => (7:ℤ))).1 (j*2 + i) =
        (square 1 0 0 1 1 2 (fun _ => (5:ℤ)) (fun idx => (7:ℤ) + idx)).1
          (j*2 + i)) ∧
    (square 0 0 0 1 1 2 (fun _ => (5:ℤ)) (fun _ => (7:ℤ))).2 =
      (square 1 0 0 1 1 2 (fun _ => (5:ℤ)) (fun idx => (7:ℤ) + idx)).2 :=
  C8_next_dependence 0 1 0 0 1 1 2 (fun _ => (5:ℤ)) (fun _ => (7:ℤ))
    (fun idx => (7:ℤ) + idx) (by decide)
    (fun i j _ hi _ hj => by interval_cases i <;> interval_cases j <;> decide)

theorem diag_lt (n i : ℕ) (hi : i < n) : i*(n+1) < n*n := by
  have h1 : (i+1)*(n+1) ≤ n*(n+1) := Nat.mul_le_mul_right _ (by omega)
  nlinarith

/-- For `i, j < n`, the flat index `j*n + i` is a multiple of `n+1`
exactly when `i = j` (the diagonal). -/
theorem dvd_flat_iff_diag (n i j : ℕ) (hi : i < n) (hj : j < n) :
    (n+1) ∣ (j*n + i) ↔ i = j := by
  constructor
  · intro hdvd
    have h1 : ((n:ℤ)+1) ∣ ((j:ℤ)*n + i) := by exact_mod_cast hdvd
    have h2 : ((n:ℤ)+1) ∣ ((i:ℤ) - j) := by
      have he : ((i:ℤ) - j) = ((j:ℤ)*n + i) - j*((n:ℤ)+1) := by ring
      rw [he]
      exact dvd_sub h1 (Dvd.intro j (mul_comm _ _))
    have h3 : (i:ℤ) - j = 0 := by
      refine Int.eq_zero_of_abs_lt_dvd h2 ?_
      rw [abs_lt]
      omega
    omega
  · rintro rfl
    exact ⟨i, by ring⟩

/-! ## Claim C9: the infinity convention in `shortest_paths` -/

/-- C9: `infinitize` replaces every zero entry of the `n*n` matrix by `n+1`
and leaves nonzero entries unchanged, regardless of the tile-bound
arguments; the subsequent diagonal-reset loop of `shortest_paths` zeroes
exactly the `n` diagonal entries `l[i*(n+1)]`, `i < n`, so that afterwards
every originally-zero off-diagonal entry is `n+1` and the diagonal is 0. -/
theorem C9_infinity_convention (n : ℕ) (_hn : 1 ≤ n) (l : ℕ → ℤ)
    (a b c d : ℕ) :
    (∀ idx, idx < n*n →
      infinitize a b c d n l idx = (if l idx = 0 then ((n:ℤ)+1) else l idx)) ∧
    (∀ idx, ¬ idx < n*n → infinitize a b c d n l idx = l idx) ∧
    (∀ i, i < n → setDiag n (infinitize a b c d n l) (i*(n+1)) = 0) ∧
    (∀ i j, i < n → j < n → i ≠ j →
      setDiag n (infinitize a b c d n l) (j*n + i) =
        (if l (j*n + i) = 0 then ((n:ℤ)+1) else l (j*n + i))) := by
  refine ⟨fun idx h => by rw [infinitize]; exact if_pos h,
    fun idx h => by rw [infinitize]; exact if_neg h, ?_, ?_⟩
  · intro i hi
    rw [setDiag]
    exact if_pos ⟨diag_lt n i hi, ⟨i, mul_comm i (n+1)⟩⟩
  · intro i j hi hj hne
    have hlt : j*n + i < n*n := by
      have h1 : (j+1)*n ≤ n*n := Nat.mul_le_mul_right _ (by omega)
      nlinarith
    rw [setDiag, if_neg (fun hc =>
      hne ((dvd_flat_iff_diag n i j hi hj).mp hc.2)), infinitize]
    exact if_pos hlt

/-- Witness for C9 at a concrete instance. -/
theorem C9_infinity_convention_witness :
    (∀ idx, idx < 2*2 →
      infinitize 0 0 2 2 2 (fun _ => (0:ℤ)) idx =
        (if (fun _ => (0:ℤ)) idx = 0 then ((2:ℕ):ℤ)+1
         else (fun _ => (0:ℤ)) idx)) ∧
    (∀ idx, ¬ idx < 2*2 →
      infinitize 0 0 2 2 2 (fun _ => (0:ℤ)) idx = (fun _ => (0:ℤ)) idx) ∧
    (∀ i, i < 2 →
      setDiag 2 (infinitize 0 0 2 2 2 (fun _ => (0:ℤ))) (i*(2+1)) = 0) ∧
    (∀ i j, i < 2 → j < 2 → i ≠ j →
      setDiag 2 (infinitize 0 0 2 2 2 (fun _ => (0:ℤ))) (j*2 + i) =
        (if (fun _ => (0:ℤ)) (j*2 + i) = 0 then ((2:ℕ):ℤ)+1
         else (fun _ => (0:ℤ)) (j*2 + i))) :=
  C9_infinity_convention 2 (by decide) (fun _ => (0:ℤ)) 0 0 2 2

/-! ### Walk lemmas -/

theorem leB_zero_iff (adj : ℕ → ℕ → Bool) (n i j : ℕ) :
    leB adj n 0 i j = true ↔ i = j := by
  simp [leB]

theorem leB_succ_iff (adj : ℕ → ℕ → Bool) (n m i j : ℕ) :
    leB adj n (m+1) i j = true ↔
      (leB adj n m i j = true ∨
        ∃ k, k < n ∧ leB adj n m i k = true ∧ adj k j = true) := by
  simp [leB, List.any_eq_true, List.mem_range, Bool.and_eq_true]

theorem leB_succ_of (adj : ℕ → ℕ → Bool) (n m i j : ℕ)
    (h : leB adj n m i j = true) : leB adj n (m+1) i j = true :=
  (leB_succ_iff adj n m i j).mpr (Or.inl h)

theorem leB_mono (adj : ℕ → ℕ → Bool) (n : ℕ) {m m' i j : ℕ} (hm : m ≤ m')
    (h : leB adj n m i j = true) : leB adj n m' i j = true := by
  induction m' with
  | zero => rwa [Nat.le_zero.mp hm] at h
  | succ m' ih =>
    rcases Nat.lt_or_ge m (m'+1) with hlt | hge
    · exact leB_succ_of adj n m' i j (ih (Nat.lt_succ_iff.mp hlt))
    · rwa [le_antisymm hm hge] at h

theorem leB_refl (adj : ℕ → ℕ → Bool) (n m i : ℕ) :
    leB adj n m i i = true :=
  leB_mono adj n (Nat.zero_le m) ((leB_zero_iff adj n i i).mpr rfl)

theorem leB_edge (adj : ℕ → ℕ → Bool) (n i j : ℕ) (hi : i < n)
    (h : adj i j = true) : leB adj n 1 i j = true :=
  (leB_succ_iff adj n 0 i j).mpr
    (Or.inr ⟨i, hi, (leB_zero_iff adj n i i).mpr rfl, h⟩)

/-- Concatenation of walks: a walk of `≤ a` edges from `i` to `k` and a walk
of `≤ b` edges from `k` to `j` give a walk of `≤ a+b` edges from `i` to `j`. -/
theorem leB_concat (adj : ℕ → ℕ → Bool) (n : ℕ) {a b i k j : ℕ}
    (h1 : leB adj n a i k = true) (h2 : leB adj n b k j = true) :
    leB adj n (a+b) i j = true := by
  induction b generalizing j with
  | zero =>
    rw [leB_zero_iff] at h2
    rwa [← h2]
  | succ b ih =>
    rcases (leB_succ_iff adj n b k j).mp h2 with h2' | ⟨k', hk', hw, he⟩
    · exact leB_succ_of adj n (a+b) i j (ih h2')
    · exact (leB_succ_iff adj n (a+b) i j).mpr (Or.inr ⟨k', hk', ih hw, he⟩)

/-- Splitting of walks: a walk of `≤ a+b` edges from `i` to `j` (with
`i, j < n`) passes through some `k < n` with a walk of `≤ a` edges `i → k`
and a walk of `≤ b` edges `k → j`. -/
theorem leB_split (adj : ℕ → ℕ → Bool) (n : ℕ) {a b i j : ℕ} (hj : j < n)
    (h : leB adj n (a+b) i j = true) :
    ∃ k, k < n ∧ leB adj n a i k = true ∧ leB adj n b k j = true := by
  induction b generalizing j with
  | zero => exact ⟨j, hj, h, (leB_zero_iff adj n j j).mpr rfl⟩
  | succ b ih =>
    rcases (leB_succ_iff adj n (a+b) i j).mp h with h' | ⟨k', hk', hw, he⟩
    · obtain ⟨k, hk, hw1, hw2⟩ := ih hj h'
      exact ⟨k, hk, hw1, leB_succ_of adj n b k j hw2⟩
    · obtain ⟨k, hk, hw1, hw2⟩ := ih hk' hw
      exact ⟨k, hk, hw1,
        (leB_succ_iff adj n b k j).mpr (Or.inr ⟨k', hk', hw2, he⟩)⟩

theorem reachSet_subset_succ (adj : ℕ → ℕ → Bool) (n i m : ℕ) :
    reachSet adj n i m ⊆ reachSet adj n i (m+1) := by
  intro x hx
  rw [reachSet, Finset.mem_filter] at hx ⊢
  exact ⟨hx.1, leB_succ_of adj n m i x hx.2⟩

theorem leB_stab_step (adj : ℕ → ℕ → Bool) (n i m : ℕ)
    (hP : ∀ k, k < n → leB adj n (m+1) i k = leB adj n m i k) :
    ∀ k, k < n → leB adj n (m+2) i k = leB adj n (m+1) i k := by
  intro k hk
  apply bool_eq_of_iff
  constructor
  · intro h
    rcases (leB_succ_iff adj n (m+1) i k).mp h with h' | ⟨k', hk', hw, he⟩
    · exact h'
    · rw [hP k' hk'] at hw
      exact (leB_succ_iff adj n m i k).mpr (Or.inr ⟨k', hk', hw, he⟩)
  · exact leB_succ_of adj n (m+1) i k

theorem leB_stab_levels (adj : ℕ → ℕ → Bool) (n i m : ℕ)
    (hP : ∀ k, k < n → leB adj n (m+1) i k = leB adj n m i k) :
    ∀ d, ∀ k, k < n → leB adj n (m+d+1) i k = leB adj n (m+d) i k := by
  intro d
  induction d with
  | zero => exact hP
  | succ d ih => exact leB_stab_step adj n i (m+d) ih

theorem leB_stab_chain (adj : ℕ → ℕ → Bool) (n i m : ℕ)
    (hP : ∀ k, k < n → leB adj n (m+1) i k = leB adj n m i k) :
    ∀ d, ∀ k, k < n → leB adj n (m+d) i k = leB adj n m i k := by
  intro d
  induction d with
  | zero => intro k _; rfl
  | succ d ih =>
    intro k hk
    rw [show m+(d+1) = (m+d)+1 from rfl, leB_stab_levels adj n i m hP d k hk,
      ih k hk]

theorem exists_stable (adj : ℕ → ℕ → Bool) (n i : ℕ) (hi : i < n) :
    ∃ m, m < n ∧ ∀ k, k < n → leB adj n (m+1) i k = leB adj n m i k := by
  by_contra hcon
  push_neg at hcon
  have haux : ∀ m, m ≤ n → m + 1 ≤ (reachSet adj n i m).card := by
    intro m
    induction m with
    | zero =>
      intro _
      have hmem : i ∈ reachSet adj n i 0 :=
        Finset.mem_filter.mpr
          ⟨Finset.mem_range.mpr hi, (leB_zero_iff adj n i i).mpr rfl⟩
      exact Finset.card_pos.mpr ⟨i, hmem⟩
    | succ m ih =>
      intro hm
      obtain ⟨k, hk, hne⟩ := hcon m (by omega)
      have h1 : leB adj n m i k = false ∧ leB adj n (m+1) i k = true := by
        cases hm1 : leB adj n m i k with
        | true =>
          exact absurd (by rw [hm1, leB_succ_of adj n m i k hm1]) hne
        | false =>
          cases hm2 : leB adj n (m+1) i k with
          | true => exact ⟨rfl, rfl⟩
          | false => exact absurd (by rw [hm1, hm2]) hne
      have hss : reachSet adj n i m ⊂ reachSet adj n i (m+1) := by
        rw [Finset.ssubset_iff_of_subset (reachSet_subset_succ adj n i m)]
        refine ⟨k, Finset.mem_filter.mpr ⟨Finset.mem_range.mpr hk, h1.2⟩, ?_⟩
        intro hmem
        rw [reachSet, Finset.mem_filter, h1.1] at hmem
        exact Bool.false_ne_true hmem.2
      have hcard := Finset.card_lt_card hss
      have ihm := ih (by omega)
      omega
  have hfin := haux n (le_refl n)
  have hle : (reachSet adj n i n).card ≤ n := by
    refine le_trans (Finset.card_filter_le _ _) ?_
    rw [Finset.card_range]
  omega

/-- Any walk can be shortened to length at most `n-1`: if `j` is reachable
from `i` at all (with `i, j < n`), it is reachable in at most `n-1` steps. -/
theorem leB_stabilize (adj : ℕ → ℕ → Bool) (n : ℕ) {i j m : ℕ}
    (hi : i < n) (hj : j < n) (h : leB adj n m i j = true) :
    leB adj n (n-1) i j = true := by
  obtain ⟨m0, hm0n, hP⟩ := exists_stable adj n i hi
  rcases le_or_lt m (n-1) with hle | hlt
  · exact leB_mono adj n hle h
  · have hchain := leB_stab_chain adj n i m0 hP (m - m0) j hj
    rw [show m0 + (m - m0) = m from by omega] at hchain
    rw [hchain] at h
    exact leB_mono adj n (by omega) h

/-! ### Properties of `distB` and `spDist` -/

theorem distB_le (adj : ℕ → ℕ → Bool) (n i j : ℕ) :
    distB adj n i j ≤ n + 1 := by
  rw [distB]
  split
  · next h => exact le_trans (le_of_lt (Nat.find_spec h).1) (by omega)
  · exact le_refl _

theorem reach_iff_bounded (adj : ℕ → ℕ → Bool) (n : ℕ) {i j : ℕ}
    (hi : i < n) (hj : j < n) :
    (∃ m, leB adj n m i j = true) ↔
      (∃ m, m < n ∧ leB adj n m i j = true) := by
  constructor
  · rintro ⟨m, hm⟩
    exact ⟨n-1, by omega, leB_stabilize adj n hi hj hm⟩
  · rintro ⟨m, _, hm⟩
    exact ⟨m, hm⟩

/-- For reachable pairs, `distB` is the least walk length (the minimum
number of edges on a directed path). -/
theorem distB_isLeast (adj : ℕ → ℕ → Bool) (n : ℕ) {i j : ℕ}
    (hi : i < n) (hj : j < n) (hreach : ∃ m, leB adj n m i j = true) :
    IsLeast {m : ℕ | leB adj n m i j = true} (distB adj n i j) := by
  have hb : ∃ m, m < n ∧ leB adj n m i j = true :=
    (reach_iff_bounded adj n hi hj).mp hreach
  rw [distB, dif_pos hb]
  constructor
  · exact (Nat.find_spec hb).2
  · intro m hm
    by_contra hlt
    push_neg at hlt
    have hmn : m < n := lt_trans hlt (Nat.find_spec hb).1
    exact Nat.find_min hb hlt ⟨hmn, hm⟩

theorem distB_unreach (adj : ℕ → ℕ → Bool) (n : ℕ) {i j : ℕ}
    (hi : i < n) (hj : j < n) (h : ¬ ∃ m, leB adj n m i j = true) :
    distB adj n i j = n + 1 := by
  rw [distB, dif_neg]
  intro hb
  exact h ((reach_iff_bounded adj n hi hj).mpr hb)

theorem spDist_nonneg (adj : ℕ → ℕ → Bool) (n i j : ℕ) :
    0 ≤ spDist adj n i j :=
  Int.ofNat_nonneg _

theorem spDist_le_sentinel (adj : ℕ → ℕ → Bool) (n i j : ℕ) :
    spDist adj n i j ≤ (n : ℤ) + 1 := by
  rw [spDist]
  exact_mod_cast distB_le adj n i j

theorem spDist_diag (adj : ℕ → ℕ → Bool) (n : ℕ) {i : ℕ} (hi : i < n) :
    spDist adj n i i = 0 := by
  have h := distB_isLeast adj n hi hi ⟨0, (leB_zero_iff adj n i i).mpr rfl⟩
  have h0 : distB adj n i i ≤ 0 := h.2 ((leB_zero_iff adj n i i).mpr rfl)
  rw [spDist, Nat.le_zero.mp h0]
  rfl

theorem spDist_le_one_of_edge (adj : ℕ → ℕ → Bool) (n : ℕ) {i j : ℕ}
    (hi : i < n) (hj : j < n) (he : adj i j = true) :
    spDist adj n i j ≤ 1 := by
  have hwalk : leB adj n 1 i j = true := leB_edge adj n i j hi he
  have h := distB_isLeast adj n hi hj ⟨1, hwalk⟩
  have h1 : distB adj n i j ≤ 1 := h.2 hwalk
  rw [spDist]
  exact_mod_cast h1

/-- The (truncated) triangle inequality for `spDist`. -/
theorem spDist_triangle (adj : ℕ → ℕ → Bool) (n : ℕ) {i j k : ℕ}
    (hi : i < n) (hj : j < n) (hk : k < n) :
    spDist adj n i j ≤ spDist adj n i k + spDist adj n k j := by
  by_cases h1 : ∃ m, leB adj n m i k = true
  · by_cases h2 : ∃ m, leB adj n m k j = true
    · have hik := distB_isLeast adj n hi hk h1
      have hkj := distB_isLeast adj n hk hj h2
      have hcat : leB adj n (distB adj n i k + distB adj n k j) i j = true :=
        leB_concat adj n hik.1 hkj.1
      have hij := distB_isLeast adj n hi hj
        ⟨distB adj n i k + distB adj n k j, hcat⟩
      have hle : distB adj n i j ≤ distB adj n i k + distB adj n k j :=
        hij.2 hcat
      rw [spDist, spDist, spDist]
      exact_mod_cast hle
    · have h2' : spDist adj n k j = (n:ℤ) + 1 := by
        rw [spDist, distB_unreach adj n hk hj h2]
        push_cast
        ring
      rw [h2']
      have := spDist_le_sentinel adj n i j
      have := spDist_nonneg adj n i k
      omega
  · have h1' : spDist adj n i k = (n:ℤ) + 1 := by
      rw [spDist, distB_unreach adj n hi hk h1]
      push_cast
      ring
    rw [h1']
    have := spDist_le_sentinel adj n i j
    have := spDist_nonneg adj n k j
    omega

/-! ### Values of `spInit` -/

theorem flat_lt (n : ℕ) {i j : ℕ} (hi : i < n) (hj : j < n) :
    j*n + i < n*n := by
  have h1 : (j+1)*n ≤ n*n := Nat.mul_le_mul_right n (by omega)
  calc j*n + i < j*n + n := by omega
    _ = (j+1)*n := by ring
    _ ≤ n*n := h1

theorem spInit_diag (n : ℕ) (l : ℕ → ℤ) {i : ℕ} (hi : i < n) :
    spInit n l (i*n + i) = 0 := by
  have he : i*n + i = i*(n+1) := by ring
  rw [spInit, setDiag, he]
  exact if_pos ⟨diag_lt n i hi, ⟨i, mul_comm i (n+1)⟩⟩

theorem spInit_offdiag (n : ℕ) (l : ℕ → ℤ) {i j : ℕ} (hi : i < n)
    (hj : j < n) (hij : i ≠ j) :
    spInit n l (j*n + i) =
      (if l (j*n + i) = 0 then ((n:ℤ)+1) else l (j*n + i)) := by
  rw [spInit, setDiag, if_neg, infinitize]
  · exact if_pos (flat_lt n hi hj)
  · rintro ⟨_, hdvd⟩
    exact hij ((dvd_flat_iff_diag n i j hi hj).mp hdvd)

theorem spInit_out (n : ℕ) (l : ℕ → ℤ) {idx : ℕ} (h : n*n ≤ idx) :
    spInit n l idx = l idx := by
  rw [spInit, setDiag, if_neg (fun hc => absurd hc.1 (not_lt.mpr h)),
    infinitize]
  exact if_neg (not_lt.mpr h)

theorem adjOf_diag_false (n : ℕ) (l : ℕ → ℤ) (hval : ValidAdj n l) {i : ℕ}
    (hi : i < n) : adjOf n l i i = false := by
  rw [adjOf, hval.2 i hi]
  decide

theorem spInit_edge (n : ℕ) (l : ℕ → ℤ) (hval : ValidAdj n l) {i j : ℕ}
    (hi : i < n) (hj : j < n) (he : adjOf n l i j = true) :
    spInit n l (j*n + i) = 1 := by
  have hl : l (j*n + i) = 1 := by
    rw [adjOf, beq_iff_eq] at he
    exact he
  have hij : i ≠ j := by
    rintro rfl
    rw [hval.2 i hi] at hl
    exact absurd hl (by decide)
  rw [spInit_offdiag n l hi hj hij, hl]
  rw [if_neg (by decide)]

theorem spInit_noedge (n : ℕ) (l : ℕ → ℤ) (hval : ValidAdj n l) {i j : ℕ}
    (hi : i < n) (hj : j < n) (hij : i ≠ j) (he : adjOf n l i j = false) :
    spInit n l (j*n + i) = (n:ℤ) + 1 := by
  have hl : l (j*n + i) = 0 := by
    rcases hval.1 i hi j hj with h0 | h1
    · exact h0
    · rw [adjOf, h1] at he
      exact absurd he (by decide)
  rw [spInit_offdiag n l hi hj hij, hl, if_pos rfl]

/-! ### One round of the single-process loop -/

theorem spStep_fst_cell (n : ℕ) (M : ℕ → ℤ) {i j : ℕ} (hi : i < n)
    (hj : j < n) :
    (spStep n M).1 (j*n + i) = (squareCell n M (M (j*n + i)) i j).1 := by
  have hcond : 0 ≤ (j*n + i) % n ∧ (j*n + i) % n < n ∧
      0 ≤ (j*n + i) / n ∧ (j*n + i) / n < n := by
    rw [decode_mod n i j hi, decode_div n i j hi]
    exact ⟨Nat.zero_le i, hi, Nat.zero_le j, hj⟩
  rw [spStep, square_fst 0 0 0 n n n M M (le_refl n) (j*n + i), if_pos hcond,
    decode_mod n i j hi, decode_div n i j hi]

theorem spStep_fst_out (n : ℕ) (M : ℕ → ℤ) {idx : ℕ} (h : n*n ≤ idx) :
    (spStep n M).1 idx = M idx := by
  rw [spStep, square_fst 0 0 0 n n n M M (le_refl n) idx, if_neg]
  rintro ⟨_, _, _, hdiv⟩
  have hn : 0 < n := by
    rcases Nat.eq_zero_or_pos n with h0 | h0
    · rw [h0] at hdiv
      omega
    · exact h0
  have : idx / n < n := hdiv
  have := (Nat.div_lt_iff_lt_mul hn).mp this
  omega

theorem spStep_flag_iff (n : ℕ) (M : ℕ → ℤ) :
    (spStep n M).2 = true ↔
      ∀ i, i < n → ∀ j, j < n → ∀ k, k < n →
        M (j*n + i) ≤ cand n M i j k := by
  rw [spStep, square_snd 0 0 0 n n n M M (le_refl n)]
  constructor
  · intro h i hi j hj k hk
    exact (squareCell_snd_iff n M (M (j*n + i)) i j).mp
      (h i j (Nat.zero_le i) hi (Nat.zero_le j) hj) k hk
  · intro h i j _ hi _ hj
    exact (squareCell_snd_iff n M (M (j*n + i)) i j).mpr (h i hi j hj)

theorem spIter_shift (n : ℕ) (M : ℕ → ℤ) (t : ℕ) :
    spIter n M (t+1) = spIter n ((spStep n M).1) t := by
  induction t with
  | zero => rfl
  | succ t ih =>
    show (spStep n (spIter n M (t+1))).1 = _
    rw [ih]
    rfl

theorem GoodM_init (n : ℕ) (l : ℕ → ℤ) (hval : ValidAdj n l) :
    GoodM n l (spInit n l) := by
  refine ⟨?_, fun i _ j _ => le_refl _, fun idx _ => rfl⟩
  intro i hi j hj
  by_cases hij : i = j
  · subst hij
    rw [spDist_diag (adjOf n l) n hi, spInit_diag n l hi]
  · cases he : adjOf n l i j with
    | true =>
      rw [spInit_edge n l hval hi hj he]
      exact spDist_le_one_of_edge (adjOf n l) n hi hj he
    | false =>
      rw [spInit_noedge n l hval hi hj hij he]
      exact spDist_le_sentinel (adjOf n l) n i j

theorem GoodM_step (n : ℕ) (l M : ℕ → ℤ) (hM : GoodM n l M) :
    GoodM n l ((spStep n M).1) := by
  obtain ⟨h1, h2, h3⟩ := hM
  refine ⟨?_, ?_, ?_⟩
  · intro i hi j hj
    rw [spStep_fst_cell n M hi hj]
    rcases squareCell_fst_cases n M (M (j*n + i)) i j with hc | ⟨k, hk, hc⟩
    · rw [hc]
      exact h1 i hi j hj
    · rw [hc]
      calc spDist (adjOf n l) n i j
          ≤ spDist (adjOf n l) n i k + spDist (adjOf n l) n k j :=
            spDist_triangle (adjOf n l) n hi hj hk
        _ ≤ M (k*n + i) + M (j*n + k) :=
            add_le_add (h1 i hi k hk) (h1 k hk j hj)
        _ = cand n M i j k := rfl
  · intro i hi j hj
    rw [spStep_fst_cell n M hi hj]
    exact le_trans (squareCell_fst_le_init n M (M (j*n + i)) i j)
      (h2 i hi j hj)
  · intro idx hidx
    rw [spStep_fst_out n M hidx]
    exact h3 idx hidx

theorem GoodM_iter (n : ℕ) (l : ℕ → ℤ) (hval : ValidAdj n l) (t : ℕ) :
    GoodM n l (spIter n (spInit n l) t) := by
  induction t with
  | zero => exact GoodM_init n l hval
  | succ t ih => exact GoodM_step n l _ ih

/-! ### The fixpoint analysis: a converged matrix holds the true distances -/

theorem fixpoint_le_walk (n : ℕ) (l M : ℕ → ℤ) (hval : ValidAdj n l)
    (h2 : ∀ i, i < n → ∀ j, j < n → M (j*n + i) ≤ spInit n l (j*n + i))
    (hfix : ∀ i, i < n → ∀ j, j < n → ∀ k, k < n →
      M (j*n + i) ≤ cand n M i j k) :
    ∀ m i j, i < n → j < n → leB (adjOf n l) n m i j = true →
      M (j*n + i) ≤ (m : ℤ) := by
  intro m
  induction m with
  | zero =>
    intro i j hi hj hw
    rw [leB_zero_iff] at hw
    subst hw
    have := h2 i hi i hi
    rw [spInit_diag n l hi] at this
    exact_mod_cast this
  | succ m ih =>
    intro i j hi hj hw
    rcases (leB_succ_iff (adjOf n l) n m i j).mp hw with hw' | ⟨k, hk, hwk, he⟩
    · calc M (j*n + i) ≤ (m : ℤ) := ih i j hi hj hw'
        _ ≤ ((m+1 : ℕ) : ℤ) := by push_cast; omega
    · have hkj : M (j*n + k) ≤ 1 := by
        have := h2 k hk j hj
        rwa [spInit_edge n l hval hk hj he] at this
      calc M (j*n + i) ≤ cand n M i j k := hfix i hi j hj k hk
        _ = M (k*n + i) + M (j*n + k) := rfl
        _ ≤ (m : ℤ) + 1 := add_le_add (ih i k hi hk hwk) hkj
        _ = ((m+1 : ℕ) : ℤ) := by push_cast; ring

/-- If a round reports convergence, the resulting matrix holds exactly the
truncated shortest-path distances. -/
theorem converged_eq_spDist (n : ℕ) (l M : ℕ → ℤ) (hval : ValidAdj n l)
    (hM : GoodM n l M) (hflag : (spStep n M).2 = true) :
    ∀ i, i < n → ∀ j, j < n →
      (spStep n M).1 (j*n + i) = spDist (adjOf n l) n i j := by
  obtain ⟨h1, h2, h3⟩ := hM
  have hfix := (spStep_flag_iff n M).mp hflag
  have hub := fixpoint_le_walk n l M hval h2 hfix
  intro i hi j hj
  have hnew1 : spDist (adjOf n l) n i j ≤ (spStep n M).1 (j*n + i) :=
    (GoodM_step n l M ⟨h1, h2, h3⟩).1 i hi j hj
  have hnew_le : (spStep n M).1 (j*n + i) ≤ M (j*n + i) := by
    rw [spStep_fst_cell n M hi hj]
    exact squareCell_fst_le_init n M (M (j*n + i)) i j
  by_cases hreach : ∃ m, leB (adjOf n l) n m i j = true
  · have hleast := distB_isLeast (adjOf n l) n hi hj hreach
    have hle : M (j*n + i) ≤ (distB (adjOf n l) n i j : ℤ) :=
      hub (distB (adjOf n l) n i j) i j hi hj hleast.1
    have : M (j*n + i) ≤ spDist (adjOf n l) n i j := hle
    omega
  · have hij : i ≠ j := by
      rintro rfl
      exact hreach ⟨0, (leB_zero_iff (adjOf n l) n i i).mpr rfl⟩
    have hne : adjOf n l i j = false := by
      cases he : adjOf n l i j with
      | false => rfl
      | true => exact absurd ⟨1, leB_edge (adjOf n l) n i j hi he⟩ hreach
    have hub2 : M (j*n + i) ≤ (n:ℤ) + 1 := by
      have := h2 i hi j hj
      rwa [spInit_noedge n l hval hi hj hij hne] at this
    have hlb : spDist (adjOf n l) n i j = (n:ℤ) + 1 := by
      rw [spDist, distB_unreach (adjOf n l) n hi hj hreach]
      push_cast
      ring
    omega

/-! ### The convergence loop -/

theorem spLoop_succ_true (n fuel : ℕ) (M : ℕ → ℤ)
    (h : (spStep n M).2 = true) :
    spLoop n (fuel+1) M = some ((spStep n M).1, 1) := by
  simp [spLoop, h]

theorem spLoop_succ_false (n fuel : ℕ) (M : ℕ → ℤ)
    (h : (spStep n M).2 = false) :
    spLoop n (fuel+1) M =
      (spLoop n fuel ((spStep n M).1)).map (fun q => (q.1, q.2 + 1)) := by
  simp [spLoop, h]

theorem deinfinitize_apply (a b c d n : ℕ) (l : ℕ → ℤ) (idx : ℕ) :
    deinfinitize a b c d n l idx =
      if idx < n*n then (if l idx = (n:ℤ)+1 then 0 else l idx) else l idx :=
  rfl

/-- Whatever fuel makes the loop return, the returned matrix holds exactly
the truncated shortest-path distances (and untouched out-of-range entries). -/
theorem spLoop_result (n : ℕ) (l : ℕ → ℤ) (hval : ValidAdj n l) :
    ∀ fuel (M F : ℕ → ℤ) (R : ℕ), GoodM n l M →
      spLoop n fuel M = some (F, R) →
      (∀ i, i < n → ∀ j, j < n → F (j*n + i) = spDist (adjOf n l) n i j) ∧
      (∀ idx, n*n ≤ idx → F idx = spInit n l idx) := by
  intro fuel
  induction fuel with
  | zero =>
    intro M F R _ h
    exact absurd h (by simp [spLoop])
  | succ fuel ih =>
    intro M F R hM hrun
    cases hflag : (spStep n M).2 with
    | true =>
      rw [spLoop_succ_true n fuel M hflag] at hrun
      have hF : (spStep n M).1 = F := by
        have := Option.some.inj hrun
        exact congrArg Prod.fst this
      subst hF
      exact ⟨converged_eq_spDist n l M hval hM hflag,
        (GoodM_step n l M hM).2.2⟩
    | false =>
      rw [spLoop_succ_false n fuel M hflag] at hrun
      obtain ⟨⟨F', R'⟩, hq, heq⟩ := Option.map_eq_some'.mp hrun
      have hF : F' = F := congrArg Prod.fst heq
      subst hF
      exact ih ((spStep n M).1) F' R' (GoodM_step n l M hM) hq

/-! ## Claim C1: end-to-end correctness of `shortest_paths` -/

/-- C1: for every `n ≥ 1` and `n×n` 0/1 input matrix with zero diagonal
(entry `(i,j)` at `l[j*n+i]`, a 1 meaning a directed edge `i → j`), after
the single-process `shortest_paths` returns (whatever the fuel), entry
`(i,j)` equals the minimum number of edges on a directed path `i → j`
whenever `j` is reachable from `i` (expressed by `IsLeast` over the lengths
`m` admitting a walk, `leB`), equals 0 on the diagonal, and equals 0 when
`j` is unreachable from `i` (the sentinel `n+1` having been converted back
to 0 by `deinfinitize`). -/
theorem C1_shortest_paths_correct (n : ℕ) (hn : 1 ≤ n) (l : ℕ → ℤ)
    (hval : ValidAdj n l) (fuel : ℕ) (F : ℕ → ℤ) (R : ℕ)
    (hrun : shortest_paths n fuel l = some (F, R)) :
    ∀ i, i < n → ∀ j, j < n →
      ((∃ m, leB (adjOf n l) n m i j = true) →
        ∃ d : ℕ, IsLeast {m : ℕ | leB (adjOf n l) n m i j = true} d ∧
          F (j*n + i) = (d : ℤ)) ∧
      (i = j → F (j*n + i) = 0) ∧
      (¬ (∃ m, leB (adjOf n l) n m i j = true) → F (j*n + i) = 0) := by
  rw [shortest_paths] at hrun
  obtain ⟨⟨G, R'⟩, hq, heq⟩ := Option.map_eq_some'.mp hrun
  have hF : deinfinitize 0 n 0 n n G = F := congrArg Prod.fst heq
  obtain ⟨hcell, hout⟩ :=
    spLoop_result n l hval fuel (spInit n l) G R' (GoodM_init n l hval) hq
  intro i hi j hj
  have hidx : j*n + i < n*n := flat_lt n hi hj
  refine ⟨?_, ?_, ?_⟩
  · intro hreach
    refine ⟨distB (adjOf n l) n i j, distB_isLeast (adjOf n l) n hi hj hreach,
      ?_⟩
    have hdlt : distB (adjOf n l) n i j < n := by
      have hb := (reach_iff_bounded (adjOf n l) n hi hj).mp hreach
      rw [distB, dif_pos hb]
      exact (Nat.find_spec hb).1
    rw [← hF, deinfinitize_apply, if_pos hidx, hcell i hi j hj, spDist]
    rw [if_neg]
    intro hc
    have : (distB (adjOf n l) n i j : ℤ) < (n:ℤ) + 1 := by
      exact_mod_cast Nat.lt_succ_of_lt hdlt
    omega
  · rintro rfl
    have h0 : ¬ ((0:ℤ) = (n:ℤ)+1) := by omega
    rw [← hF, deinfinitize_apply, if_pos hidx, hcell i hi i hi,
      spDist_diag (adjOf n l) n hi, if_neg h0]
  · intro hunreach
    rw [← hF, deinfinitize_apply, if_pos hidx, hcell i hi j hj, spDist,
      distB_unreach (adjOf n l) n hi hj hunreach]
    rw [if_pos (by push_cast; ring)]

/-- Witness for C1 at the concrete instance `n = 1`, `l ≡ 0`, fuel 1. -/
theorem C1_shortest_paths_correct_witness :
    ∃ (F : ℕ → ℤ) (R : ℕ), shortest_paths 1 1 (fun _ => 0) = some (F, R) ∧
      ∀ i, i < 1 → ∀ j, j < 1 →
        ((∃ m, leB (adjOf 1 (fun _ => 0)) 1 m i j = true) →
          ∃ d : ℕ,
            IsLeast {m : ℕ | leB (adjOf 1 (fun _ => 0)) 1 m i j = true} d ∧
            F (j*1 + i) = (d : ℤ)) ∧
        (i = j → F (j*1 + i) = 0) ∧
        (¬ (∃ m, leB (adjOf 1 (fun _ => 0)) 1 m i j = true) →
          F (j*1 + i) = 0) :=
  ⟨_, _, rfl, C1_shortest_paths_correct 1 (le_refl 1) (fun _ => 0)
    ⟨fun i _ j _ => Or.inl rfl, fun i _ => rfl⟩ 1 _ _ rfl⟩

/-! ## Claim C5: the round bound of the convergence loop -/

/-- Upper-bound invariant after `t` rounds: any pair joined by a walk of
`≤ min(m, 2^t)` edges has matrix entry at most `m`. -/
theorem UB_init (n : ℕ) (l : ℕ → ℤ) (hval : ValidAdj n l) :
    ∀ i, i < n → ∀ j, j < n → ∀ m : ℕ, m ≤ 2^0 →
      leB (adjOf n l) n m i j = true → spInit n l (j*n + i) ≤ (m : ℤ) := by
  intro i hi j hj m hm hw
  interval_cases m
  · rw [leB_zero_iff] at hw
    subst hw
    rw [spInit_diag n l hi]
    norm_num
  · rcases (leB_succ_iff (adjOf n l) n 0 i j).mp hw with hw' | ⟨k, hk, hwk, he⟩
    · rw [leB_zero_iff] at hw'
      subst hw'
      rw [spInit_diag n l hi]
      norm_num
    · rw [leB_zero_iff] at hwk
      subst hwk
      rw [spInit_edge n l hval hi hj he]
      norm_num

theorem UB_step (n : ℕ) (l M : ℕ → ℤ) (t : ℕ)
    (hub : ∀ i, i < n → ∀ j, j < n → ∀ m : ℕ, m ≤ 2^t →
      leB (adjOf n l) n m i j = true → M (j*n + i) ≤ (m : ℤ)) :
    ∀ i, i < n → ∀ j, j < n → ∀ m : ℕ, m ≤ 2^(t+1) →
      leB (adjOf n l) n m i j = true →
      (spStep n M).1 (j*n + i) ≤ (m : ℤ) := by
  intro i hi j hj m hm hw
  have hle : (spStep n M).1 (j*n + i) ≤ M (j*n + i) := by
    rw [spStep_fst_cell n M hi hj]
    exact squareCell_fst_le_init n M (M (j*n + i)) i j
  rcases le_or_lt m (2^t) with h1 | h1
  · exact le_trans hle (hub i hi j hj m h1 hw)
  · have hpow : (2:ℕ)^(t+1) = 2^t + 2^t := by
      rw [pow_succ]
      omega
    have hsplit : m = (m - 2^t) + 2^t := by omega
    rw [hsplit] at hw
    obtain ⟨k, hk, hw1, hw2⟩ := leB_split (adjOf n l) n hj hw
    have ha : M (k*n + i) ≤ ((m - 2^t : ℕ) : ℤ) :=
      hub i hi k hk (m - 2^t) (by omega) hw1
    have hb : M (j*n + k) ≤ ((2^t : ℕ) : ℤ) :=
      hub k hk j hj (2^t) (le_refl _) hw2
    have hcand : (spStep n M).1 (j*n + i) ≤ cand n M i j k := by
      rw [spStep_fst_cell n M hi hj]
      exact squareCell_fst_le_cand n M (M (j*n + i)) i j k hk
    calc (spStep n M).1 (j*n + i) ≤ cand n M i j k := hcand
      _ = M (k*n + i) + M (j*n + k) := rfl
      _ ≤ ((m - 2^t : ℕ) : ℤ) + ((2^t : ℕ) : ℤ) := add_le_add ha hb
      _ = (m : ℤ) := by
          rw [← Nat.cast_add]
          congr 1
          omega

theorem UB_iter (n : ℕ) (l : ℕ → ℤ) (hval : ValidAdj n l) :
    ∀ t, ∀ i, i < n → ∀ j, j < n → ∀ m : ℕ, m ≤ 2^t →
      leB (adjOf n l) n m i j = true →
      spIter n (spInit n l) t (j*n + i) ≤ (m : ℤ) := by
  intro t
  induction t with
  | zero => exact UB_init n l hval
  | succ t ih => exact UB_step n l (spIter n (spInit n l) t) t ih

/-- A matrix that already holds the truncated distances makes `square`
report convergence. -/
theorem flag_of_eq_spDist (n : ℕ) (l M : ℕ → ℤ)
    (heq : ∀ i, i < n → ∀ j, j < n →
      M (j*n + i) = spDist (adjOf n l) n i j) :
    (spStep n M).2 = true := by
  rw [spStep_flag_iff]
  intro i hi j hj k hk
  have hc : cand n M i j k = M (k*n + i) + M (j*n + k) := rfl
  rw [hc, heq i hi j hj, heq i hi k hk, heq k hk j hj]
  exact spDist_triangle (adjOf n l) n hi hj hk

/-- After `⌈log₂ n⌉` rounds the matrix holds the truncated distances. -/
theorem iter_eq_spDist (n : ℕ) (l : ℕ → ℤ) (hval : ValidAdj n l) :
    ∀ i, i < n → ∀ j, j < n →
      spIter n (spInit n l) (Nat.clog 2 n) (j*n + i) =
        spDist (adjOf n l) n i j := by
  intro i hi j hj
  have hgood := GoodM_iter n l hval (Nat.clog 2 n)
  have hge := hgood.1 i hi j hj
  have hnpow : n ≤ 2^(Nat.clog 2 n) := Nat.le_pow_clog (by norm_num) n
  have hrfl : spDist (adjOf n l) n i j = (distB (adjOf n l) n i j : ℤ) := rfl
  by_cases hreach : ∃ m, leB (adjOf n l) n m i j = true
  · have hleast := distB_isLeast (adjOf n l) n hi hj hreach
    have hdlt : distB (adjOf n l) n i j < n := by
      have hb := (reach_iff_bounded (adjOf n l) n hi hj).mp hreach
      rw [distB, dif_pos hb]
      exact (Nat.find_spec hb).1
    have hle : spIter n (spInit n l) (Nat.clog 2 n) (j*n + i) ≤
        (distB (adjOf n l) n i j : ℤ) :=
      UB_iter n l hval (Nat.clog 2 n) i hi j hj _ (by omega) hleast.1
    rw [hrfl] at hge ⊢
    omega
  · have hij : i ≠ j := by
      rintro rfl
      exact hreach ⟨0, (leB_zero_iff (adjOf n l) n i i).mpr rfl⟩
    have hne : adjOf n l i j = false := by
      cases he : adjOf n l i j with
      | false => rfl
      | true => exact absurd ⟨1, leB_edge (adjOf n l) n i j hi he⟩ hreach
    have hub2 : spIter n (spInit n l) (Nat.clog 2 n) (j*n + i) ≤ (n:ℤ) + 1 := by
      have := hgood.2.1 i hi j hj
      rwa [spInit_noedge n l hval hi hj hij hne] at this
    have hlb : spDist (adjOf n l) n i j = (n:ℤ) + 1 := by
      rw [spDist, distB_unreach (adjOf n l) n hi hj hreach]
      push_cast
      ring
    rw [hlb]
    rw [hlb] at hge
    omega

/-- After `⌈log₂ n⌉` rounds the next round reports convergence. -/
theorem iter_converged (n : ℕ) (hn : 1 ≤ n) (l : ℕ → ℤ)
    (hval : ValidAdj n l) :
    (spStep n (spIter n (spInit n l) (Nat.clog 2 n))).2 = true :=
  flag_of_eq_spDist n l _ (iter_eq_spDist n l hval)

/-- If the flag comes up true after `t` further rounds and the fuel covers
round `t+1`, the loop returns within `t+1` rounds. -/
theorem spLoop_terminates (n : ℕ) :
    ∀ fuel t (M : ℕ → ℤ), t < fuel →
      (spStep n (spIter n M t)).2 = true →
      ∃ (F : ℕ → ℤ) (R : ℕ), spLoop n fuel M = some (F, R) ∧ R ≤ t + 1 := by
  intro fuel
  induction fuel with
  | zero => intro t M h _; omega
  | succ fuel ih =>
    intro t M ht hflag
    cases hstep : (spStep n M).2 with
    | true =>
      exact ⟨(spStep n M).1, 1, spLoop_succ_true n fuel M hstep, by omega⟩
    | false =>
      cases t with
      | zero =>
        have hflag' : (spStep n M).2 = true := hflag
        rw [hstep] at hflag'
        exact absurd hflag' (by simp)
      | succ t =>
        rw [spIter_shift n M t] at hflag
        obtain ⟨F, R, hsome, hR⟩ :=
          ih t ((spStep n M).1) (by omega) hflag
        refine ⟨F, R + 1, ?_, by omega⟩
        rw [spLoop_succ_false n fuel M hstep, hsome]
        rfl

/-- C5: for every `n ≥ 1` and 0/1 adjacency matrix with zero diagonal, the
single-process repeated-squaring loop terminates, and the number of
executed rounds is at most `⌈log₂ n⌉ + 1` (`Nat.clog 2 n + 1`): fuel
`⌈log₂ n⌉ + 1` already makes the loop return, with the round counter
bounded by the same quantity. -/
theorem C5_round_bound (n : ℕ) (hn : 1 ≤ n) (l : ℕ → ℤ)
    (hval : ValidAdj n l) :
    ∃ (F : ℕ → ℤ) (R : ℕ),
      spLoop n (Nat.clog 2 n + 1) (spInit n l) = some (F, R) ∧
      R ≤ Nat.clog 2 n + 1 := by
  exact spLoop_terminates n (Nat.clog 2 n + 1) (Nat.clog 2 n) (spInit n l)
    (by omega) (iter_converged n hn l hval)

/-- Witness for C5 at the concrete instance `n = 1`, `l ≡ 0`. -/
theorem C5_round_bound_witness :
    ∃ (F : ℕ → ℤ) (R : ℕ),
      spLoop 1 (Nat.clog 2 1 + 1) (spInit 1 (fun _ => 0)) = some (F, R) ∧
      R ≤ Nat.clog 2 1 + 1 :=
  C5_round_bound 1 (le_refl 1) (fun _ => 0)
    ⟨fun i _ j _ => Or.inl rfl, fun i _ => rfl⟩

theorem decomp_fst_eq (n g iproc : ℕ) (h1 : 1 ≤ iproc) :
    (decomp n g iproc).1 = decompStart n g iproc := by
  rw [decomp, decompStart]
  by_cases h : iproc ≤ n % g
  · rw [if_pos h, if_pos (by omega)]
  · rw [if_neg h]
    by_cases h2 : iproc ≤ n % g + 1
    · rw [if_pos h2]
      have hip : iproc - (n%g) - 1 = 0 := by omega
      have hip2 : iproc - 1 = n % g := by omega
      rw [hip, hip2]
      simp
    · rw [if_neg h2]
      have he : iproc - (n%g) - 1 = iproc - 1 - (n%g) := by omega
      rw [he]

theorem decomp_snd_eq (n g iproc : ℕ) (h1 : 1 ≤ iproc) :
    (decomp n g iproc).2 = decompStart n g (iproc+1) := by
  rw [decomp, decompStart]
  by_cases h : iproc ≤ n % g
  · rw [if_pos h, if_pos (by omega)]
    have he : iproc + 1 - 1 = (iproc - 1) + 1 := by omega
    rw [he, Nat.succ_mul]
  · rw [if_neg h, if_neg (by omega)]
    have he : iproc + 1 - 1 - (n%g) = (iproc - (n%g) - 1) + 1 := by omega
    rw [he, Nat.succ_mul, Nat.add_assoc]

theorem decompStart_one (n g : ℕ) : decompStart n g 1 = 0 := by
  rw [decompStart, if_pos (by omega)]
  simp

theorem decompStart_last (n g : ℕ) (hg : 1 ≤ g) :
    decompStart n g (g+1) = n := by
  have hr : n % g < g := Nat.mod_lt n hg
  rw [decompStart, if_neg (by omega)]
  have h3 : g + 1 - 1 - (n%g) = g - n%g := by omega
  rw [h3]
  obtain ⟨s, hs⟩ : ∃ s, g = n%g + s := ⟨g - n%g, by omega⟩
  have hg2 : g - n%g = s := by omega
  rw [hg2]
  have hdm := Nat.div_add_mod n g
  calc (n%g)*(n/g+1) + s*(n/g) = (n%g + s)*(n/g) + n%g := by ring
    _ = g*(n/g) + n%g := by rw [← hs]
    _ = n := hdm

theorem decompStart_mono_succ (n g i : ℕ) (h1 : 1 ≤ i) :
    decompStart n g i ≤ decompStart n g (i+1) := by
  rw [← decomp_fst_eq n g i h1, ← decomp_snd_eq n g i h1, decomp]
  by_cases h : i ≤ n % g
  · rw [if_pos h]
    exact Nat.le_add_right _ _
  · rw [if_neg h]
    exact Nat.le_add_right _ _

theorem decompStart_mono (n g : ℕ) : ∀ i i', 1 ≤ i → i ≤ i' →
    decompStart n g i ≤ decompStart n g i' := by
  intro i i' h1 h2
  induction i' with
  | zero => omega
  | succ i' ih =>
    rcases Nat.lt_or_ge i (i'+1) with hlt | hge
    · exact le_trans (ih (by omega))
        (decompStart_mono_succ n g i' (by omega))
    · have he : i = i'+1 := by omega
      rw [he]

theorem decomp_cover (n g : ℕ) (hg : 1 ≤ g) (x : ℕ) (hx : x < n) :
    ∃ iproc, 1 ≤ iproc ∧ iproc ≤ g ∧
      decompStart n g iproc ≤ x ∧ x < decompStart n g (iproc+1) := by
  have key : ∀ t, t ≤ g → x < decompStart n g (t+1) →
      ∃ iproc, 1 ≤ iproc ∧ iproc ≤ t ∧
        decompStart n g iproc ≤ x ∧ x < decompStart n g (iproc+1) := by
    intro t
    induction t with
    | zero =>
      intro _ hlt
      rw [decompStart_one] at hlt
      omega
    | succ t ih =>
      intro ht hlt
      rcases le_or_lt (decompStart n g (t+1)) x with hge | hlt2
      · exact ⟨t+1, by omega, le_refl _, hge, hlt⟩
      · obtain ⟨ip, hp1, hp2, hp3, hp4⟩ := ih (by omega) hlt2
        exact ⟨ip, hp1, by omega, hp3, hp4⟩
  refine key g (le_refl g) ?_
  rw [decompStart_last n g hg]
  exact hx

theorem decomp_unique (n g : ℕ) {x ip ip' : ℕ}
    (h1 : 1 ≤ ip) (h1' : 1 ≤ ip')
    (hc : (decomp n g ip).1 ≤ x ∧ x < (decomp n g ip).2)
    (hc' : (decomp n g ip').1 ≤ x ∧ x < (decomp n g ip').2) :
    ip = ip' := by
  by_contra hne
  rcases Nat.lt_or_ge ip ip' with hlt | hge
  · have : (decomp n g ip).2 ≤ (decomp n g ip').1 := by
      rw [decomp_snd_eq n g ip h1, decomp_fst_eq n g ip' h1']
      exact decompStart_mono n g (ip+1) ip' (by omega) (by omega)
    omega
  · have hlt : ip' < ip := by omega
    have : (decomp n g ip').2 ≤ (decomp n g ip).1 := by
      rw [decomp_snd_eq n g ip' h1', decomp_fst_eq n g ip h1]
      exact decompStart_mono n g (ip'+1) ip (by omega) (by omega)
    omega

theorem decomp_imax_le (n g iproc : ℕ) (hg : 1 ≤ g) (h1 : 1 ≤ iproc)
    (h2 : iproc ≤ g) : (decomp n g iproc).2 ≤ n := by
  rw [decomp_snd_eq n g iproc h1]
  calc decompStart n g (iproc+1) ≤ decompStart n g (g+1) :=
        decompStart_mono n g (iproc+1) (g+1) (by omega) (by omega)
    _ = n := decompStart_last n g hg

theorem decomp_exists_unique (n g : ℕ) (hg : 1 ≤ g) (x : ℕ) (hx : x < n) :
    ∃! iproc, 1 ≤ iproc ∧ iproc ≤ g ∧
      (decomp n g iproc).1 ≤ x ∧ x < (decomp n g iproc).2 := by
  obtain ⟨ip, hp1, hp2, hp3, hp4⟩ := decomp_cover n g hg x hx
  refine ⟨ip, ⟨hp1, hp2, ?_, ?_⟩, ?_⟩
  · rw [decomp_fst_eq n g ip hp1]
    exact hp3
  · rw [decomp_snd_eq n g ip hp1]
    exact hp4
  · rintro ip' ⟨h1', _, hc1, hc2⟩
    refine decomp_unique n g h1' hp1 ⟨hc1, hc2⟩ ⟨?_, ?_⟩
    · rw [decomp_fst_eq n g ip hp1]
      exact hp3
    · rw [decomp_snd_eq n g ip hp1]
      exact hp4

/-! ## Claim C3: partition completeness and remainder policy -/

/-- C3: per axis (`q = n/g`, `r = n%g`): the first `r` 1-indexed
coordinates receive `q+1` indices, the rest `q`; every coordinate receives
at least one index; and for each `x < n` exactly one coordinate's range
`[imin_, imax_)` contains `x`.  Applied to both axes, each point of
`[0,n) × [0,n)` lies in exactly one of the `gx*gy` tiles. -/
theorem C3_partition (n gx gy : ℕ) (hn : 1 ≤ n) (hgx1 : 1 ≤ gx)
    (hgxn : gx ≤ n) (hgy1 : 1 ≤ gy) (hgyn : gy ≤ n) :
    (∀ g, 1 ≤ g → g ≤ n → ∀ iproc, 1 ≤ iproc → iproc ≤ g →
      ((iproc ≤ n % g →
          (decomp n g iproc).2 = (decomp n g iproc).1 + (n / g + 1)) ∧
       (n % g < iproc →
          (decomp n g iproc).2 = (decomp n g iproc).1 + n / g) ∧
       (decomp n g iproc).1 < (decomp n g iproc).2)) ∧
    (∀ g, 1 ≤ g → g ≤ n → ∀ x, x < n →
      ∃! iproc, 1 ≤ iproc ∧ iproc ≤ g ∧
        (decomp n g iproc).1 ≤ x ∧ x < (decomp n g iproc).2) ∧
    (∀ x y, x < n → y < n →
      ∃! p : ℕ × ℕ, 1 ≤ p.1 ∧ p.1 ≤ gx ∧ 1 ≤ p.2 ∧ p.2 ≤ gy ∧
        (decomp n gx p.1).1 ≤ x ∧ x < (decomp n gx p.1).2 ∧
        (decomp n gy p.2).1 ≤ y ∧ y < (decomp n gy p.2).2) := by
  have hsizes : ∀ g, 1 ≤ g → g ≤ n → ∀ iproc, 1 ≤ iproc → iproc ≤ g →
      ((iproc ≤ n % g →
          (decomp n g iproc).2 = (decomp n g iproc).1 + (n / g + 1)) ∧
       (n % g < iproc →
          (decomp n g iproc).2 = (decomp n g iproc).1 + n / g) ∧
       (decomp n g iproc).1 < (decomp n g iproc).2) := by
    intro g hg1 hgn iproc h1 h2
    have hq : 1 ≤ n / g := (Nat.one_le_div_iff (by omega)).mpr hgn
    have hthen : iproc ≤ n % g →
        (decomp n g iproc).2 = (decomp n g iproc).1 + (n / g + 1) := by
      intro h
      rw [decomp, if_pos h]
    have helse : n % g < iproc →
        (decomp n g iproc).2 = (decomp n g iproc).1 + n / g := by
      intro h
      rw [decomp, if_neg (by omega)]
    refine ⟨hthen, helse, ?_⟩
    rcases le_or_lt iproc (n % g) with h | h
    · rw [hthen h]
      omega
    · rw [helse h]
      omega
  refine ⟨hsizes, fun g hg1 hgn x hx => decomp_exists_unique n g hg1 x hx, ?_⟩
  intro x y hx hy
  obtain ⟨ip, hip, hipu⟩ := decomp_exists_unique n gx hgx1 x hx
  obtain ⟨jp, hjp, hjpu⟩ := decomp_exists_unique n gy hgy1 y hy
  refine ⟨(ip, jp), ⟨hip.1, hip.2.1, hjp.1, hjp.2.1, hip.2.2.1, hip.2.2.2,
    hjp.2.2.1, hjp.2.2.2⟩, ?_⟩
  rintro ⟨ip', jp'⟩ ⟨h1, h2, h3, h4, h5, h6, h7, h8⟩
  have hx' : ip' = ip := hipu ip' ⟨h1, h2, h5, h6⟩
  have hy' : jp' = jp := hjpu jp' ⟨h3, h4, h7, h8⟩
  rw [hx', hy']

/-- Witness for C3 at a concrete instance. -/
theorem C3_partition_witness :
    (∀ g, 1 ≤ g → g ≤ 3 → ∀ iproc, 1 ≤ iproc → iproc ≤ g →
      ((iproc ≤ 3 % g →
          (decomp 3 g iproc).2 = (decomp 3 g iproc).1 + (3 / g + 1)) ∧
       (3 % g < iproc →
          (decomp 3 g iproc).2 = (decomp 3 g iproc).1 + 3 / g) ∧
       (decomp 3 g iproc).1 < (decomp 3 g iproc).2)) ∧
    (∀ g, 1 ≤ g → g ≤ 3 → ∀ x, x < 3 →
      ∃! iproc, 1 ≤ iproc ∧ iproc ≤ g ∧
        (decomp 3 g iproc).1 ≤ x ∧ x < (decomp 3 g iproc).2) ∧
    (∀ x y, x < 3 → y < 3 →
      ∃! p : ℕ × ℕ, 1 ≤ p.1 ∧ p.1 ≤ 2 ∧ 1 ≤ p.2 ∧ p.2 ≤ 3 ∧
        (decomp 3 2 p.1).1 ≤ x ∧ x < (decomp 3 2 p.1).2 ∧
        (decomp 3 3 p.2).1 ≤ y ∧ y < (decomp 3 3 p.2).2) :=
  C3_partition 3 2 3 (by decide) (by decide) (by decide) (by decide)
    (by decide)

/-- C6 counterexample: with `npx = npy = 1` and `world_size = 2`, the
non-root process of rank 1 does not abort at the check — it continues
towards the partitioning and `shortest_paths` — refuting "every process of
the run aborts". -/
theorem C6_counterexample :
    (1:ℤ) * 1 ≠ (2:ℤ) ∧ (0:ℤ) ≤ 1 ∧ (1:ℤ) < 2 ∧
      mainCheck 1 1 2 1 = MainOutcome.ran := by decide

/-- C6 amended: on `npx*npy ≠ world_size` only the root process (rank 0)
aborts, with the nonzero exit status −1 and a diagnostic reporting the
requested (`npx*npy`) versus available (`world_size`) process counts,
before any partitioning or invocation of `shortest_paths`; every non-root
process passes the check and proceeds. -/
theorem C6_config_abort (npx npy world_size irank : ℤ)
    (hmis : npx * npy ≠ world_size) :
    mainCheck npx npy world_size 0 =
      MainOutcome.aborted (npx*npy) world_size (-1) ∧
    ((-1:ℤ) ≠ 0) ∧
    (irank ≠ 0 → mainCheck npx npy world_size irank = MainOutcome.ran) := by
  refine ⟨?_, by decide, ?_⟩
  · rw [mainCheck, if_pos ⟨hmis, rfl⟩]
  · intro h
    rw [mainCheck, if_neg]
    rintro ⟨_, h0⟩
    exact h h0

/-- Witness for the amended C6 at a concrete instance. -/
theorem C6_config_abort_witness :
    mainCheck 2 1 1 0 = MainOutcome.aborted (2*1) 1 (-1) ∧
    ((-1:ℤ) ≠ 0) ∧
    ((5:ℤ) ≠ 0 → mainCheck 2 1 1 5 = MainOutcome.ran) :=
  C6_config_abort 2 1 1 5 (by decide)

/-- C10: `gen_graph` returns an `n×n` matrix of 0/1 entries with zero
diagonal (a `ValidAdj` input, satisfying `infinitize`'s zero-diagonal
precondition), and it is a deterministic function of `(n, p)` alone: it
consults the generator family only at the fixed seed `10302011`, so any two
generator families agreeing at that seed produce identical matrices. -/
theorem C10_gen_graph (mt : ℕ → ℕ → ℚ) (n : ℕ) (p : ℚ) :
    (∀ i j, i < n → j < n →
      gen_graph mt n p (j*n + i) = 0 ∨ gen_graph mt n p (j*n + i) = 1) ∧
    (∀ j, j < n → gen_graph mt n p (j*n + j) = 0) ∧
    ValidAdj n (gen_graph mt n p) ∧
    (∀ mt' : ℕ → ℕ → ℚ, mt 10302011 = mt' 10302011 →
      gen_graph mt n p = gen_graph mt' n p) := by
  have h01 : ∀ i j, i < n → j < n →
      gen_graph mt n p (j*n + i) = 0 ∨ gen_graph mt n p (j*n + i) = 1 := by
    intro i j hi hj
    simp only [gen_graph]
    rw [if_pos (flat_lt n hi hj)]
    by_cases hd : (j*n + i) % n = (j*n + i) / n
    · rw [if_pos hd]
      exact Or.inl rfl
    · rw [if_neg hd]
      by_cases hp : mt 10302011 (j*n + i) < p
      · rw [if_pos hp]
        exact Or.inr rfl
      · rw [if_neg hp]
        exact Or.inl rfl
  have hdiag : ∀ j, j < n → gen_graph mt n p (j*n + j) = 0 := by
    intro j hj
    simp only [gen_graph]
    rw [if_pos (flat_lt n hj hj), if_pos]
    rw [decode_mod n j j hj, decode_div n j j hj]
  refine ⟨h01, hdiag, ⟨fun i hi j hj => h01 i j hi hj,
    fun i hi => hdiag i hi⟩, ?_⟩
  intro mt' h
  funext idx
  simp only [gen_graph, h]

/-- Witness for C10 at a concrete instance. -/
theorem C10_gen_graph_witness :
    gen_graph (fun _ _ => 0) 2 (1/2) (1*2 + 1) = 0 :=
  (C10_gen_graph (fun _ _ => 0) 2 (1/2)).2.1 1 (by decide)

theorem mem_gridL (gx gy : ℕ) (p : ℕ × ℕ) :
    p ∈ gridL gx gy ↔
      (1 ≤ p.1 ∧ p.1 ≤ gx) ∧ (1 ≤ p.2 ∧ p.2 ≤ gy) := by
  rw [gridL, List.mem_join]
  constructor
  · rintro ⟨row, hrow, hp⟩
    rw [List.mem_map] at hrow
    obtain ⟨px, hpx, rfl⟩ := hrow
    rw [List.mem_map] at hp
    obtain ⟨py, hpy, rfl⟩ := hp
    rw [List.mem_range'_1] at hpx hpy
    exact ⟨⟨hpx.1, by omega⟩, ⟨hpy.1, by omega⟩⟩
  · rintro ⟨⟨h1, h2⟩, ⟨h3, h4⟩⟩
    refine ⟨(List.range' 1 gy).map (fun py => (p.1, py)), ?_, ?_⟩
    · rw [List.mem_map]
      exact ⟨p.1, by rw [List.mem_range'_1]; omega, rfl⟩
    · rw [List.mem_map]
      refine ⟨p.2, by rw [List.mem_range'_1]; omega, ?_⟩
      exact Prod.ext rfl rfl

theorem one_one_mem_gridL (gx gy : ℕ) (hgx : 1 ≤ gx) (hgy : 1 ≤ gy) :
    ((1, 1) : ℕ × ℕ) ∈ gridL gx gy :=
  (mem_gridL gx gy (1, 1)).mpr ⟨⟨le_refl 1, hgx⟩, ⟨le_refl 1, hgy⟩⟩

theorem foldl_min_le_init (xs : List ℤ) (a : ℤ) : xs.foldl min a ≤ a := by
  induction xs generalizing a with
  | nil => exact le_refl a
  | cons x xs ih =>
    exact le_trans (ih (min a x)) (min_le_left a x)

theorem foldl_min_le_mem (xs : List ℤ) (a x : ℤ) (hx : x ∈ xs) :
    xs.foldl min a ≤ x := by
  induction xs generalizing a with
  | nil => cases hx
  | cons y ys ih =>
    rcases List.mem_cons.mp hx with rfl | hx'
    · exact le_trans (foldl_min_le_init ys (min a x)) (min_le_right a x)
    · exact ih (min a y) hx'

theorem le_foldl_min (xs : List ℤ) (a c : ℤ) (ha : c ≤ a)
    (h : ∀ x ∈ xs, c ≤ x) : c ≤ xs.foldl min a := by
  induction xs generalizing a with
  | nil => exact ha
  | cons x xs ih =>
    exact ih (min a x) (le_min ha (h x (List.mem_cons_self x xs)))
      (fun y hy => h y (List.mem_cons_of_mem x hy))

theorem listMin_le (xs : List ℤ) (x : ℤ) (hx : x ∈ xs) : listMin xs ≤ x := by
  cases xs with
  | nil => cases hx
  | cons y ys =>
    rcases List.mem_cons.mp hx with rfl | hx'
    · exact foldl_min_le_init ys x
    · exact foldl_min_le_mem ys y x hx'

theorem le_listMin (xs : List ℤ) (c : ℤ) (hne : xs ≠ [])
    (h : ∀ x ∈ xs, c ≤ x) : c ≤ listMin xs := by
  cases xs with
  | nil => exact absurd rfl hne
  | cons y ys =>
    exact le_foldl_min ys y c (h y (List.mem_cons_self y ys))
      (fun x hx => h x (List.mem_cons_of_mem y hx))

theorem listMin_eq (xs : List ℤ) (c : ℤ) (hmem : c ∈ xs)
    (h : ∀ x ∈ xs, c ≤ x) : listMin xs = c :=
  le_antisymm (listMin_le xs c hmem)
    (le_listMin xs c (List.ne_nil_of_mem hmem) h)

theorem MBound_init (n : ℕ) (l : ℕ → ℤ) : MBound n l (spInit n l) :=
  ⟨fun _ _ _ _ => le_refl _, fun _ _ => rfl⟩

theorem MBound_step (n : ℕ) (l M : ℕ → ℤ) (hM : MBound n l M) :
    MBound n l ((spStep n M).1) := by
  refine ⟨?_, ?_⟩
  · intro i hi j hj
    rw [spStep_fst_cell n M hi hj]
    exact le_trans (squareCell_fst_le_init n M (M (j*n + i)) i j)
      (hM.1 i hi j hj)
  · intro idx hidx
    rw [spStep_fst_out n M hidx]
    exact hM.2 idx hidx

theorem MPInv_init (n gx gy : ℕ) (l : ℕ → ℤ) :
    MPInv n gx gy l (spInit n l) (fun _ => spInit n l) := by
  intro p _ idx
  by_cases h : InTile n gx gy p idx
  · rw [if_pos h]
  · rw [if_neg h]

theorem InTile_flat (n gx gy : ℕ) (p : ℕ × ℕ) {i j : ℕ} (hi : i < n) :
    InTile n gx gy p (j*n + i) ↔
      ((decomp n gx p.1).1 ≤ i ∧ i < (decomp n gx p.1).2 ∧
       (decomp n gy p.2).1 ≤ j ∧ j < (decomp n gy p.2).2) := by
  rw [InTile, decode_mod n i j hi, decode_div n i j hi]

theorem InTile_out (n gx gy : ℕ) (hn : 1 ≤ n) (hgy : 1 ≤ gy)
    (p : ℕ × ℕ) (hp : p ∈ gridL gx gy) {idx : ℕ} (hidx : n*n ≤ idx) :
    ¬ InTile n gx gy p idx := by
  rintro ⟨_, _, _, h4⟩
  have hp2 := ((mem_gridL gx gy p).mp hp).2
  have hb2 : (decomp n gy p.2).2 ≤ n :=
    decomp_imax_le n gy p.2 hgy hp2.1 hp2.2
  have hdiv : n ≤ idx / n := Nat.le_div_iff_mul_le (by omega) |>.mpr
    (by omega)
  omega

/-- The unique owner of an in-range cell. -/
theorem owner_exists_unique (n gx gy : ℕ) (hgx : 1 ≤ gx) (hgy : 1 ≤ gy)
    {i j : ℕ} (hi : i < n) (hj : j < n) :
    ∃ p, p ∈ gridL gx gy ∧ InTile n gx gy p (j*n + i) ∧
      ∀ p', p' ∈ gridL gx gy → InTile n gx gy p' (j*n + i) → p' = p := by
  obtain ⟨ip, ⟨hip1, hip2, hip3, hip4⟩, hipu⟩ :=
    decomp_exists_unique n gx hgx i hi
  obtain ⟨jp, ⟨hjp1, hjp2, hjp3, hjp4⟩, hjpu⟩ :=
    decomp_exists_unique n gy hgy j hj
  refine ⟨(ip, jp), (mem_gridL gx gy (ip, jp)).mpr
      ⟨⟨hip1, hip2⟩, ⟨hjp1, hjp2⟩⟩,
    (InTile_flat n gx gy (ip, jp) hi).mpr ⟨hip3, hip4, hjp3, hjp4⟩, ?_⟩
  intro p' hp' ht'
  obtain ⟨hx1, hx2, hy1, hy2⟩ := (InTile_flat n gx gy p' hi).mp ht'
  have hpm := (mem_gridL gx gy p').mp hp'
  have h1 : p'.1 = ip := hipu p'.1 ⟨hpm.1.1, hpm.1.2, hx1, hx2⟩
  have h2 : p'.2 = jp := hjpu p'.2 ⟨hpm.2.1, hpm.2.2, hy1, hy2⟩
  exact Prod.ext h1 h2

/-! ### One multi-process round equals one single-process round -/

theorem mpRound_fst_snd (n gx gy : ℕ) (M : ℕ → ℤ)
    (B : (ℕ × ℕ) → ℕ → ℤ) :
    (mpRound n gx gy (M, B)).1.2 =
      fun p => (procSquare n gx gy M (B p) p).1 := rfl

theorem mpRound_fst_fst (n gx gy : ℕ) (M : ℕ → ℤ)
    (B : (ℕ × ℕ) → ℕ → ℤ) :
    (mpRound n gx gy (M, B)).1.1 = fun idx =>
      listMin ((gridL gx gy).map
        (fun p => (procSquare n gx gy M (B p) p).1 idx)) := rfl

theorem mpRound_snd (n gx gy : ℕ) (M : ℕ → ℤ)
    (B : (ℕ × ℕ) → ℕ → ℤ) :
    (mpRound n gx gy (M, B)).2 =
      (gridL gx gy).all
        (fun p => (procSquare n gx gy M (B p) p).2) := rfl

theorem procSquare_fst (n gx gy : ℕ) (hgx : 1 ≤ gx) (M : ℕ → ℤ)
    (B : ℕ → ℤ) (p : ℕ × ℕ) (hp : p ∈ gridL gx gy) (idx : ℕ) :
    (procSquare n gx gy M B p).1 idx =
      if InTile n gx gy p idx
      then (squareCell n M (B idx) (idx % n) (idx / n)).1
      else B idx := by
  have hp1 := ((mem_gridL gx gy p).mp hp).1
  have ha2 : (decomp n gx p.1).2 ≤ n :=
    decomp_imax_le n gx p.1 hgx hp1.1 hp1.2
  exact square_fst 0 _ _ _ _ n M B ha2 idx

theorem procSquare_snd (n gx gy : ℕ) (hgx : 1 ≤ gx) (M : ℕ → ℤ)
    (B : ℕ → ℤ) (p : ℕ × ℕ) (hp : p ∈ gridL gx gy) :
    (procSquare n gx gy M B p).2 = true ↔
      ∀ i j, (decomp n gx p.1).1 ≤ i → i < (decomp n gx p.1).2 →
        (decomp n gy p.2).1 ≤ j → j < (decomp n gy p.2).2 →
        (squareCell n M (B (j*n + i)) i j).2 = true := by
  have hp1 := ((mem_gridL gx gy p).mp hp).1
  have ha2 : (decomp n gx p.1).2 ≤ n :=
    decomp_imax_le n gx p.1 hgx hp1.1 hp1.2
  exact square_snd 0 _ _ _ _ n M B ha2

theorem spStep_fst_idx (n : ℕ) (M : ℕ → ℤ) {idx : ℕ} (hj : idx / n < n) :
    (spStep n M).1 idx = (squareCell n M (M idx) (idx % n) (idx / n)).1 := by
  have hn : 0 < n := by
    rcases Nat.eq_zero_or_pos n with h0 | h0
    · rw [h0] at hj
      exact absurd hj (by simp)
    · exact h0
  rw [spStep, square_fst 0 0 0 n n n M M (le_refl n) idx, if_pos]
  exact ⟨Nat.zero_le _, Nat.mod_lt idx hn, Nat.zero_le _, hj⟩

theorem mpRound_merged_cell (n gx gy : ℕ) (hgx : 1 ≤ gx) (hgy : 1 ≤ gy)
    (l M : ℕ → ℤ) (B : (ℕ × ℕ) → ℕ → ℤ) (hB : MPInv n gx gy l M B)
    (hM : MBound n l M) {i j : ℕ} (hi : i < n) (hj : j < n) :
    (mpRound n gx gy (M, B)).1.1 (j*n + i) = (spStep n M).1 (j*n + i) := by
  obtain ⟨p0, hp0mem, hp0tile, hp0uniq⟩ :=
    owner_exists_unique n gx gy hgx hgy hi hj
  have howner : (procSquare n gx gy M (B p0) p0).1 (j*n + i) =
      (spStep n M).1 (j*n + i) := by
    rw [procSquare_fst n gx gy hgx M (B p0) p0 hp0mem, if_pos hp0tile,
      hB p0 hp0mem (j*n + i), if_pos hp0tile,
      decode_mod n i j hi, decode_div n i j hi, spStep_fst_cell n M hi hj]
  have hother : ∀ p ∈ gridL gx gy,
      (spStep n M).1 (j*n + i) ≤ (procSquare n gx gy M (B p) p).1 (j*n + i) := by
    intro p hp
    rw [procSquare_fst n gx gy hgx M (B p) p hp]
    by_cases ht : InTile n gx gy p (j*n + i)
    · have hpp := hp0uniq p hp ht
      subst hpp
      rw [if_pos ht, hB p hp0mem (j*n + i), if_pos ht,
        decode_mod n i j hi, decode_div n i j hi, spStep_fst_cell n M hi hj]
    · rw [if_neg ht, hB p hp (j*n + i), if_neg ht]
      calc (spStep n M).1 (j*n + i) ≤ M (j*n + i) := by
            rw [spStep_fst_cell n M hi hj]
            exact squareCell_fst_le_init n M (M (j*n + i)) i j
        _ ≤ spInit n l (j*n + i) := hM.1 i hi j hj
  rw [congrFun (mpRound_fst_fst n gx gy M B) (j*n + i)]
  refine listMin_eq _ _ ?_ ?_
  · rw [List.mem_map]
    exact ⟨p0, hp0mem, howner⟩
  · intro x hx
    rw [List.mem_map] at hx
    obtain ⟨p, hp, rfl⟩ := hx
    exact hother p hp

theorem mpRound_merged_out (n gx gy : ℕ) (hn : 1 ≤ n) (hgx : 1 ≤ gx)
    (hgy : 1 ≤ gy) (l M : ℕ → ℤ) (B : (ℕ × ℕ) → ℕ → ℤ)
    (hB : MPInv n gx gy l M B) (hM : MBound n l M) {idx : ℕ}
    (hidx : n*n ≤ idx) :
    (mpRound n gx gy (M, B)).1.1 idx = (spStep n M).1 idx := by
  have hval : ∀ p ∈ gridL gx gy,
      (procSquare n gx gy M (B p) p).1 idx = spInit n l idx := by
    intro p hp
    rw [procSquare_fst n gx gy hgx M (B p) p hp,
      if_neg (InTile_out n gx gy hn hgy p hp hidx), hB p hp idx,
      if_neg (InTile_out n gx gy hn hgy p hp hidx)]
  have h2 : (spStep n M).1 idx = spInit n l idx := by
    rw [spStep_fst_out n M hidx]
    exact hM.2 idx hidx
  rw [congrFun (mpRound_fst_fst n gx gy M B) idx, h2]
  refine listMin_eq _ _ ?_ ?_
  · rw [List.mem_map]
    exact ⟨(1,1), one_one_mem_gridL gx gy hgx hgy,
      hval (1,1) (one_one_mem_gridL gx gy hgx hgy)⟩
  · intro x hx
    rw [List.mem_map] at hx
    obtain ⟨p, hp, rfl⟩ := hx
    rw [hval p hp]

/-- The MIN-merged matrix of a multi-process round equals the matrix of the
corresponding single-process round. -/
theorem mpRound_merged (n gx gy : ℕ) (hn : 1 ≤ n) (hgx : 1 ≤ gx)
    (hgy : 1 ≤ gy) (l M : ℕ → ℤ) (B : (ℕ × ℕ) → ℕ → ℤ)
    (hB : MPInv n gx gy l M B) (hM : MBound n l M) :
    (mpRound n gx gy (M, B)).1.1 = (spStep n M).1 := by
  funext idx
  rcases lt_or_ge idx (n*n) with h | h
  · have hi : idx % n < n := Nat.mod_lt idx (by omega)
    have hj : idx / n < n := (Nat.div_lt_iff_lt_mul (by omega)).mpr h
    have he : (idx/n)*n + idx%n = idx := decode_eq n idx (by omega)
    calc (mpRound n gx gy (M, B)).1.1 idx
        = (mpRound n gx gy (M, B)).1.1 ((idx/n)*n + idx%n) := by rw [he]
      _ = (spStep n M).1 ((idx/n)*n + idx%n) :=
          mpRound_merged_cell n gx gy hgx hgy l M B hB hM hi hj
      _ = (spStep n M).1 idx := by rw [he]
  · exact mpRound_merged_out n gx gy hn hgx hgy l M B hB hM h

/-- The AND of the per-process flags equals the single-process flag. -/
theorem mpRound_flag (n gx gy : ℕ) (hgx : 1 ≤ gx) (hgy : 1 ≤ gy)
    (l M : ℕ → ℤ) (B : (ℕ × ℕ) → ℕ → ℤ) (hB : MPInv n gx gy l M B) :
    (mpRound n gx gy (M, B)).2 = (spStep n M).2 := by
  apply bool_eq_of_iff
  rw [mpRound_snd n gx gy M B, List.all_eq_true, spStep_flag_iff]
  constructor
  · intro h i hi j hj k hk
    obtain ⟨p0, hp0mem, hp0tile, _⟩ :=
      owner_exists_unique n gx gy hgx hgy hi hj
    have hflag := (procSquare_snd n gx gy hgx M (B p0) p0 hp0mem).mp
      (h p0 hp0mem)
    obtain ⟨ht1, ht2, ht3, ht4⟩ := (InTile_flat n gx gy p0 hi).mp hp0tile
    have hcell := hflag i j ht1 ht2 ht3 ht4
    rw [hB p0 hp0mem (j*n + i), if_pos hp0tile] at hcell
    exact (squareCell_snd_iff n M (M (j*n + i)) i j).mp hcell k hk
  · intro h p hp
    rw [procSquare_snd n gx gy hgx M (B p) p hp]
    intro i j hi1 hi2 hj1 hj2
    have hp1 := ((mem_gridL gx gy p).mp hp).1
    have hp2 := ((mem_gridL gx gy p).mp hp).2
    have hi : i < n :=
      lt_of_lt_of_le hi2 (decomp_imax_le n gx p.1 hgx hp1.1 hp1.2)
    have hj : j < n :=
      lt_of_lt_of_le hj2 (decomp_imax_le n gy p.2 hgy hp2.1 hp2.2)
    have htile : InTile n gx gy p (j*n + i) :=
      (InTile_flat n gx gy p hi).mpr ⟨hi1, hi2, hj1, hj2⟩
    rw [hB p hp (j*n + i), if_pos htile]
    exact (squareCell_snd_iff n M (M (j*n + i)) i j).mpr
      (fun k hk => h i hi j hj k hk)

/-- The per-process buffer invariant is preserved by a round. -/
theorem MPInv_step (n gx gy : ℕ) (hgx : 1 ≤ gx) (hgy : 1 ≤ gy)
    (l M : ℕ → ℤ) (B : (ℕ × ℕ) → ℕ → ℤ) (hB : MPInv n gx gy l M B) :
    MPInv n gx gy l ((spStep n M).1) ((mpRound n gx gy (M, B)).1.2) := by
  intro p hp idx
  rw [congrFun (mpRound_fst_snd n gx gy M B) p,
    procSquare_fst n gx gy hgx M (B p) p hp idx]
  have hp1 := ((mem_gridL gx gy p).mp hp).1
  have hp2 := ((mem_gridL gx gy p).mp hp).2
  by_cases ht : InTile n gx gy p idx
  · rw [if_pos ht, if_pos ht, hB p hp idx, if_pos ht]
    have hj : idx / n < n :=
      lt_of_lt_of_le ht.2.2.2 (decomp_imax_le n gy p.2 hgy hp2.1 hp2.2)
    rw [spStep_fst_idx n M hj]
  · rw [if_neg ht, if_neg ht, hB p hp idx, if_neg ht]

/-! ### The loop-level equivalence -/

theorem mpLoop_succ_true (n gx gy fuel : ℕ)
    (st : (ℕ → ℤ) × ((ℕ × ℕ) → ℕ → ℤ)) (h : (mpRound n gx gy st).2 = true) :
    mpLoop n gx gy (fuel+1) st = some ((mpRound n gx gy st).1.1, 1) := by
  simp [mpLoop, h]

theorem mpLoop_succ_false (n gx gy fuel : ℕ)
    (st : (ℕ → ℤ) × ((ℕ × ℕ) → ℕ → ℤ))
    (h : (mpRound n gx gy st).2 = false) :
    mpLoop n gx gy (fuel+1) st =
      (mpLoop n gx gy fuel (mpRound n gx gy st).1).map
        (fun q => (q.1, q.2 + 1)) := by
  simp [mpLoop, h]

theorem mpLoop_eq_spLoop (n gx gy : ℕ) (hn : 1 ≤ n) (hgx : 1 ≤ gx)
    (hgy : 1 ≤ gy) (l : ℕ → ℤ) :
    ∀ fuel (M : ℕ → ℤ) (B : (ℕ × ℕ) → ℕ → ℤ),
      MPInv n gx gy l M B → MBound n l M →
      mpLoop n gx gy fuel (M, B) = spLoop n fuel M := by
  intro fuel
  induction fuel with
  | zero => intro M B _ _; rfl
  | succ fuel ih =>
    intro M B hB hM
    have hflag := mpRound_flag n gx gy hgx hgy l M B hB
    have hmerged := mpRound_merged n gx gy hn hgx hgy l M B hB hM
    cases hsp : (spStep n M).2 with
    | true =>
      rw [mpLoop_succ_true n gx gy fuel (M, B) (by rw [hflag, hsp])]
      rw [spLoop_succ_true n fuel M hsp, hmerged]
    | false =>
      rw [mpLoop_succ_false n gx gy fuel (M, B) (by rw [hflag, hsp]),
        spLoop_succ_false n fuel M hsp]
      have hpair : (mpRound n gx gy (M, B)).1 =
          ((spStep n M).1, (mpRound n gx gy (M, B)).1.2) := by
        rw [← hmerged]
      rw [hpair, ih ((spStep n M).1) ((mpRound n gx gy (M, B)).1.2)
        (MPInv_step n gx gy hgx hgy l M B hB) (MBound_step n l M hM)]

/-! ## Claim C2: grid-independence (bit-for-bit reproducibility) -/

/-- C2: for every `n ≥ 1`, 0/1 adjacency matrix with zero diagonal, and
valid process grid `(gx, gy)`, the round-based multi-process model of
`shortest_paths` produces, for every fuel, exactly the same outcome as the
single-process run — same termination behaviour, element-wise identical
merged final matrix, and same round count — and hence the same
`fletcher16` checksum of the final matrix. -/
theorem C2_grid_independence (n gx gy : ℕ) (hn : 1 ≤ n) (l : ℕ → ℤ)
    (_hval : ValidAdj n l) (hgx : 1 ≤ gx) (_hgxn : gx ≤ n) (hgy : 1 ≤ gy)
    (_hgyn : gy ≤ n) (fuel : ℕ) :
    mpLoop n gx gy fuel (mpInit n l) = spLoop n fuel (spInit n l) ∧
    (mpLoop n gx gy fuel (mpInit n l)).map
        (fun q => fletcher16 q.1 (n*n)) =
      (spLoop n fuel (spInit n l)).map (fun q => fletcher16 q.1 (n*n)) := by
  have h := mpLoop_eq_spLoop n gx gy hn hgx hgy l fuel (spInit n l)
    (fun _ => spInit n l) (MPInv_init n gx gy l) (MBound_init n l)
  exact ⟨h, congrArg _ h⟩

/-- Witness for C2 at a concrete instance. -/
theorem C2_grid_independence_witness :
    mpLoop 1 1 1 2 (mpInit 1 (fun _ => 0)) =
        spLoop 1 2 (spInit 1 (fun _ => 0)) ∧
    (mpLoop 1 1 1 2 (mpInit 1 (fun _ => 0))).map
        (fun q => fletcher16 q.1 (1*1)) =
      (spLoop 1 2 (spInit 1 (fun _ => 0))).map
        (fun q => fletcher16 q.1 (1*1)) :=
  C2_grid_independence 1 1 1 (le_refl 1) (fun _ => 0)
    ⟨fun i _ j _ => Or.inl rfl, fun i _ => rfl⟩
    (le_refl 1) (le_refl 1) (le_refl 1) (le_refl 1) 2

end Path
